import Mathlib

/-!
Verification of the orchestration engine of the `edward` local-service
manager against its natural-language specification.

The Go sources are shallowly embedded: pure functions become Lean
functions, maps keyed by unique names become association lists, mutable
state is threaded explicitly, and fallible operations return
`Except String`.  Effectful collaborators (the OS process table, the
file system, readiness polling) are abstracted as oracle records whose
fields give the outcome of each external step, so that the control flow
of the Go code can be mirrored exactly.
-/

namespace Edward

/-! ## Common helpers

Go's `sort.Strings` sorts a string slice ascending (byte-wise
comparison, which on valid UTF-8 agrees with code-point lexicographic
order).  Since duplicates are identical strings, the ascending sorted
permutation of a list is unique, so any correct sorting algorithm is an
observationally exact model; we use insertion sort over an executable
lexicographic comparison that is proved equal to the standard `≤` on
`String`. -/

/-- Executable lexicographic strict order on character lists. -/
def lexLt : List Char → List Char → Bool
  | [], [] => false
  | [], _ :: _ => true
  | _ :: _, [] => false
  | a :: as, b :: bs => decide (a < b) || (!(decide (b < a)) && lexLt as bs)

/-- Executable `≤` on strings (kernel-computable, unlike `String.ltb`). -/
def strLe (a b : String) : Bool := !(lexLt b.toList a.toList)

theorem lexLt_iff : ∀ x y : List Char, lexLt x y = true ↔ List.Lex (· < ·) x y
  | [], [] => by
    simp only [lexLt]
    constructor
    · intro h
      cases h
    · intro h
      cases h
  | [], _ :: _ => by
    simp only [lexLt, true_iff]
    exact List.Lex.nil
  | _ :: _, [] => by
    simp only [lexLt]
    constructor
    · intro h
      cases h
    · intro h
      cases h
  | a :: as, b :: bs => by
    simp only [lexLt, Bool.or_eq_true, Bool.and_eq_true, Bool.not_eq_true',
      decide_eq_true_eq, decide_eq_false_iff_not, lexLt_iff as bs]
    constructor
    · rintro (h | ⟨h1, h2⟩)
      · exact List.Lex.rel h
      · rcases lt_trichotomy a b with h' | h' | h'
        · exact List.Lex.rel h'
        · subst h'
          exact List.Lex.cons h2
        · exact absurd h' h1
    · intro h
      cases h with
      | cons h => exact Or.inr ⟨lt_irrefl _, by assumption⟩
      | rel h => exact Or.inl h

theorem strLe_iff (a b : String) : strLe a b = true ↔ a ≤ b := by
  rw [String.le_iff_toList_le, ← not_lt]
  show (!(lexLt b.toList a.toList)) = true ↔ ¬ List.Lex (· < ·) b.toList a.toList
  rw [Bool.not_eq_true', ← lexLt_iff]
  simp

/-- Propositional form of `strLe`, the sorting relation. -/
def StrLeP (a b : String) : Prop := strLe a b = true

instance : DecidableRel StrLeP := fun a b => instDecidableEqBool (strLe a b) true

instance : IsTotal String StrLeP :=
  ⟨fun a b => by
    simp only [StrLeP, strLe_iff]
    exact le_total a b⟩

instance : IsTrans String StrLeP :=
  ⟨fun a b c hab hbc => by
    simp only [StrLeP, strLe_iff] at hab hbc ⊢
    exact le_trans hab hbc⟩

/-- Model of Go `sort.Strings`: ascending sort of a list of strings. -/
def sortStrings (l : List String) : List String :=
  List.insertionSort StrLeP l

theorem sortStrings_sorted (l : List String) :
    List.Sorted (fun a b : String => a ≤ b) (sortStrings l) :=
  (List.sorted_insertionSort StrLeP l).imp (fun h => (strLe_iff _ _).mp h)

theorem sortStrings_perm (l : List String) : List.Perm (sortStrings l) l :=
  List.perm_insertionSort _ l

theorem mem_sortStrings {l : List String} {x : String} :
    x ∈ sortStrings l ↔ x ∈ l :=
  (sortStrings_perm l).mem_iff

/-! ## Config resolver data model (src/unnamed/part_003, package `config`)

`services.ServiceConfig` is embedded keeping the fields the resolution
algorithm inspects: `Name`, `Aliases`, `Env`, and the result of the
`MatchesPlatform()` predicate (a pure function of the static `Platform`
field and the build OS, embedded as a boolean field).  `Path`,
`ConfigFile` and the backend descriptor are not consulted by any
resolution decision verified here and are omitted. -/

structure ServiceConfig where
  name : String
  aliases : List String
  env : List String
  matchesPlatform : Bool
deriving Repr, DecidableEq

/-- Embedding of `config.GroupDef`: a group defined by child names. -/
structure GroupDef where
  name : String
  aliases : List String
  description : String
  children : List String
  env : List String
deriving Repr, DecidableEq

/-- Embedding of `services.ServiceGroupConfig` as produced by `initMaps`.
Go stores child services and child groups as pointers into the service
and group maps; since all names are unique once resolution succeeds
(one allocation per name), pointers are modeled by names. -/
structure ServiceGroupConfig where
  name : String
  aliases : List String
  description : String
  services : List String
  groups : List String
  env : List String
  childOrder : List String
deriving Repr, DecidableEq

/-- Embedding of `config.Config` restricted to the fields read by
`initMaps`: the shared `Env` list, own and imported service and group
definitions. -/
structure Config where
  env : List String
  groups : List GroupDef
  services : List ServiceConfig
  importedGroups : List GroupDef
  importedServices : List ServiceConfig
deriving Repr, DecidableEq

/-- Effective service list: `append(c.Services, c.ImportedServices...)`. -/
def Config.allServices (c : Config) : List ServiceConfig :=
  c.services ++ c.importedServices

/-- Effective group-definition list: `append(c.Groups, c.ImportedGroups...)`. -/
def Config.allGroupDefs (c : Config) : List GroupDef :=
  c.groups ++ c.importedGroups

/-- Embedding of `config.intersect`: the values already present in the
set `m`, in ascending order (Go filters `values` by membership in the
map `m` and then calls `sort.Strings`). -/
def intersect (m : List String) (values : List String) : List String :=
  sortStrings (values.filter (fun v => m.contains v))

/-- Identifier list of a service definition, in the order Go builds it:
`append(sc.Aliases, sc.Name)`. -/
def ServiceConfig.idents (s : ServiceConfig) : List String :=
  s.aliases ++ [s.name]

/-- Identifier list of a group definition: `append(g.Aliases, g.Name)`. -/
def GroupDef.idents (g : GroupDef) : List String :=
  g.aliases ++ [g.name]

/-- Duplicate-identifier error message built by `initMaps`. -/
def dupMsg (i : List String) : String :=
  "Duplicate name or alias: " ++ String.intercalate ", " i

/-! ### Service phase of `initMaps`

State after processing a prefix of the effective service list.  Go's
`svcs` map (name to service, insertion keyed by unique names) is an
ordered list; `servicesSkipped` and `namesInUse` are sets of strings,
modeled as lists used only through membership. -/

structure SvcPhase where
  svcs : List ServiceConfig
  servicesSkipped : List String
  namesInUse : List String
deriving Repr, DecidableEq

/-- One iteration of the service loop of `initMaps`: merge the shared
env by appending (`sc.Env = append(sc.Env, c.Env...)`), then either
skip the service (platform mismatch), fail on an identifier collision,
or record the service and its identifiers. -/
def processService (cEnv : List String) (st : SvcPhase) (s : ServiceConfig) :
    Except String SvcPhase :=
  let sc : ServiceConfig := { s with env := s.env ++ cEnv }
  if sc.matchesPlatform then
    let i := intersect st.namesInUse sc.idents
    if i = [] then
      Except.ok { st with
        svcs := st.svcs ++ [sc]
        namesInUse := st.namesInUse ++ sc.idents }
    else
      Except.error (dupMsg i)
  else
    Except.ok { st with servicesSkipped := st.servicesSkipped ++ [sc.name] }

/-- The service loop of `initMaps` over the effective service list. -/
def servicesPhase (cEnv : List String) :
    List ServiceConfig → SvcPhase → Except String SvcPhase
  | [], st => Except.ok st
  | s :: rest, st =>
    match processService cEnv st s with
    | Except.ok st' => servicesPhase cEnv rest st'
    | Except.error e => Except.error e

/-! ### Group pass one of `initMaps` -/

structure GroupPhase1 where
  groups : List ServiceGroupConfig
  orphanNames : List String
  namesInUse : List String
deriving Repr, DecidableEq

/-- Lookup in the service map built by the service phase. -/
def svcLookup (svcs : List ServiceConfig) (n : String) : Option ServiceConfig :=
  svcs.find? (fun s => s.name == n)

/-- Set insertion for `orphanNames` (a Go map used as a set). -/
def insertName (l : List String) (n : String) : List String :=
  if l.contains n then l else l ++ [n]

/-- The group entry recorded by the first group loop: service children
resolved (in child order), `Groups` left empty for pass two. -/
def group1Entry (svcs : List ServiceConfig) (g : GroupDef) : ServiceGroupConfig :=
  { name := g.name, aliases := g.aliases, description := g.description
    services := g.children.filter (fun n => (svcLookup svcs n).isSome)
    groups := [], env := g.env, childOrder := g.children }

/-- Candidate-orphan accumulation of the first group loop: each child
that is neither a known service nor a skipped service name is added to
the orphan set. -/
def addOrphans (svcs : List ServiceConfig) (skipped : List String)
    (o : List String) (g : GroupDef) : List String :=
  g.children.foldl (fun o n =>
    if (svcLookup svcs n).isSome then o
    else if skipped.contains n then o
    else insertName o n) o

/-- One iteration of the first group loop: resolve child names that are
known services, collect candidate orphans (children that are neither a
known service nor platform-skipped), check the group's identifiers for
collisions, and record the group with an empty `Groups` list. -/
def processGroup1 (svcs : List ServiceConfig) (skipped : List String)
    (st : GroupPhase1) (g : GroupDef) : Except String GroupPhase1 :=
  let i := intersect st.namesInUse g.idents
  if i = [] then
    Except.ok
      { groups := st.groups ++ [group1Entry svcs g]
        orphanNames := addOrphans svcs skipped st.orphanNames g
        namesInUse := st.namesInUse ++ g.idents }
  else
    Except.error (dupMsg i)

/-- The first group loop of `initMaps`. -/
def groupsPhase1 (svcs : List ServiceConfig) (skipped : List String) :
    List GroupDef → GroupPhase1 → Except String GroupPhase1
  | [], st => Except.ok st
  | g :: rest, st =>
    match processGroup1 svcs skipped st g with
    | Except.ok st' => groupsPhase1 svcs skipped rest st'
    | Except.error e => Except.error e

/-! ### Group pass two of `initMaps` -/

structure GroupPhase2 where
  groups : List ServiceGroupConfig
  orphanNames : List String
deriving Repr, DecidableEq

/-- The `Groups` field of the group named `n` in the current group map
(empty when absent; in Go every looked-up name is a key). -/
def groupsOf (gs : List ServiceGroupConfig) (n : String) : List String :=
  match gs.find? (fun g => g.name == n) with
  | some g => g.groups
  | none => []

/-- Embedding of `config.hasChildCycle`: walk each child, succeeding if
it is the parent or if the walk of its currently assigned `Groups`
reaches the parent.  The Go recursion has no structural bound; it
terminates because pass two errors out before a cyclic structure is ever
assigned.  The embedding bounds the recursion depth by explicit fuel;
`groupCycleFuel` below is provably sufficient because any detecting walk
can be taken along a repetition-free path, whose length is at most the
number of groups. -/
def hasChildCycle (gs : List ServiceGroupConfig) :
    Nat → String → List String → Bool
  | 0, _, _ => false
  | fuel + 1, parent, children =>
    children.any (fun sg =>
      parent == sg || hasChildCycle gs fuel parent (groupsOf gs sg))

/-- Fuel used for the embedded cycle walk. -/
def groupCycleFuel (gs : List ServiceGroupConfig) : Nat :=
  gs.length + 1

/-- Inner loop of pass two for one group definition: accumulate resolved
child groups, delete resolved names from the orphan set, and run the
cycle check after every child (exactly as the Go loop does). -/
def processChildren2 (gs : List ServiceGroupConfig) (parent : String) :
    List String → List String × List String →
    Except String (List String × List String)
  | [], acc => Except.ok acc
  | n :: rest, (cg, orph) =>
    let acc' :=
      if (gs.find? (fun g => g.name == n)).isSome then
        (cg ++ [n], orph.erase n)
      else
        (cg, orph)
    if hasChildCycle gs (groupCycleFuel gs) parent acc'.1 then
      Except.error ("group cycle: " ++ parent)
    else
      processChildren2 gs parent rest acc'

/-- Assign the `Groups` field of the group named `n`. -/
def setGroups (gs : List ServiceGroupConfig) (n : String)
    (children : List String) : List ServiceGroupConfig :=
  gs.map (fun g => if g.name == n then { g with groups := children } else g)

/-- The second group loop of `initMaps`. -/
def groupsPhase2 : List GroupDef → GroupPhase2 → Except String GroupPhase2
  | [], st => Except.ok st
  | g :: rest, st =>
    match processChildren2 st.groups g.name g.children ([], st.orphanNames) with
    | Except.error e => Except.error e
    | Except.ok (cg, orph) =>
      groupsPhase2 rest { groups := setGroups st.groups g.name cg
                          orphanNames := orph }

/-- Result of a successful resolution: the two maps assigned at the end
of `initMaps`. -/
structure ResolvedMaps where
  serviceMap : List ServiceConfig
  groupMap : List ServiceGroupConfig
deriving Repr, DecidableEq

/-- Orphan error message built at the end of `initMaps`.  Go joins the
keys of the `orphanNames` map in map-iteration order; the embedding uses
first-insertion order (the claims under verification do not constrain
the order). -/
def orphanMsg (names : List String) : String :=
  "A service or group could not be found for the following names: " ++
    String.intercalate ", " names

/-- Embedding of `config.initMaps`: service phase, group pass one, group
pass two, then the orphan check; the maps are produced only when every
check passes. -/
def initMaps (c : Config) : Except String ResolvedMaps :=
  match servicesPhase c.env c.allServices ⟨[], [], []⟩ with
  | Except.error e => Except.error e
  | Except.ok sp =>
    match groupsPhase1 sp.svcs sp.servicesSkipped c.allGroupDefs
        ⟨[], [], sp.namesInUse⟩ with
    | Except.error e => Except.error e
    | Except.ok g1 =>
      match groupsPhase2 c.allGroupDefs ⟨g1.groups, g1.orphanNames⟩ with
      | Except.error e => Except.error e
      | Except.ok g2 =>
        if g2.orphanNames = [] then
          Except.ok ⟨sp.svcs, g2.groups⟩
        else
          Except.error (orphanMsg g2.orphanNames)

/-! ## Characterization of the service phase -/

/-- The env merge `initMaps` applies to each service definition:
`sc.Env = append(sc.Env, c.Env...)` — the shared list is appended
verbatim after the service's own entries. -/
def mergeSvc (cEnv : List String) (s : ServiceConfig) : ServiceConfig :=
  { s with env := s.env ++ cEnv }

theorem mem_intersect {m values : List String} {x : String} :
    x ∈ intersect m values ↔ x ∈ values ∧ x ∈ m := by
  rw [intersect, mem_sortStrings, List.mem_filter, List.elem_iff]

theorem intersect_eq_nil_iff {m values : List String} :
    intersect m values = [] ↔ ∀ v ∈ values, v ∉ m := by
  constructor
  · intro h v hv hvm
    have hx : v ∈ intersect m values := mem_intersect.mpr ⟨hv, hvm⟩
    rw [h] at hx
    cases hx
  · intro h
    rw [intersect, List.filter_eq_nil_iff.mpr
      (fun v hv => by simpa [List.elem_iff] using h v hv)]
    rfl

theorem intersect_sorted (m values : List String) :
    List.Sorted (fun a b : String => a ≤ b) (intersect m values) :=
  sortStrings_sorted _

theorem mergeSvc_idents (cEnv : List String) (s : ServiceConfig) :
    (mergeSvc cEnv s).idents = s.idents := rfl

theorem processService_ok_of_matches {cEnv : List String} {st : SvcPhase}
    {s : ServiceConfig} (hm : s.matchesPlatform = true)
    (hi : intersect st.namesInUse s.idents = []) :
    processService cEnv st s =
      Except.ok { st with
        svcs := st.svcs ++ [mergeSvc cEnv s]
        namesInUse := st.namesInUse ++ s.idents } := by
  have : (mergeSvc cEnv s).matchesPlatform = s.matchesPlatform := rfl
  simp only [processService]
  rw [show ({ s with env := s.env ++ cEnv } : ServiceConfig).idents = s.idents from rfl]
  rw [show ({ s with env := s.env ++ cEnv } : ServiceConfig).matchesPlatform
        = s.matchesPlatform from rfl, hm]
  simp only [if_true, hi, if_pos]
  simp [mergeSvc, hm]

theorem processService_err_of_dup {cEnv : List String} {st : SvcPhase}
    {s : ServiceConfig} (hm : s.matchesPlatform = true)
    (hi : intersect st.namesInUse s.idents ≠ []) :
    processService cEnv st s =
      Except.error (dupMsg (intersect st.namesInUse s.idents)) := by
  simp only [processService]
  rw [show ({ s with env := s.env ++ cEnv } : ServiceConfig).idents = s.idents from rfl]
  rw [show ({ s with env := s.env ++ cEnv } : ServiceConfig).matchesPlatform
        = s.matchesPlatform from rfl, hm]
  simp only [if_true, hi, if_neg]
  rfl

theorem processService_ok_of_skip {cEnv : List String} {st : SvcPhase}
    {s : ServiceConfig} (hm : s.matchesPlatform = false) :
    processService cEnv st s =
      Except.ok { st with servicesSkipped := st.servicesSkipped ++ [s.name] } := by
  simp only [processService]
  rw [show ({ s with env := s.env ++ cEnv } : ServiceConfig).matchesPlatform
        = s.matchesPlatform from rfl, hm]
  rfl

theorem servicesPhase_ok (cEnv : List String) :
    ∀ (ss : List ServiceConfig) (st st' : SvcPhase),
      servicesPhase cEnv ss st = Except.ok st' →
      st'.svcs = st.svcs ++ (ss.filter (·.matchesPlatform)).map (mergeSvc cEnv) ∧
      st'.servicesSkipped =
        st.servicesSkipped ++ (ss.filter (fun s => !s.matchesPlatform)).map (·.name) ∧
      st'.namesInUse =
        st.namesInUse ++ ((ss.filter (·.matchesPlatform)).map (·.idents)).flatten := by
  intro ss
  induction ss with
  | nil =>
    intro st st' h
    cases h
    simp
  | cons s rest ih =>
    intro st st' h
    rw [servicesPhase] at h
    by_cases hm : s.matchesPlatform
    · by_cases hi : intersect st.namesInUse s.idents = []
      · rw [processService_ok_of_matches hm hi] at h
        rcases ih _ _ h with ⟨h1, h2, h3⟩
        refine ⟨?_, ?_, ?_⟩
        · simp [h1, hm]
        · simp [h2, hm]
        · simp [h3, hm]
      · rw [processService_err_of_dup hm hi] at h
        cases h
    · rw [processService_ok_of_skip (Bool.not_eq_true _ ▸ hm)] at h
      rcases ih _ _ h with ⟨h1, h2, h3⟩
      refine ⟨?_, ?_, ?_⟩
      · simp [h1, hm]
      · simp [h2, hm]
      · simp [h3, hm]

/-- Successful resolution fixes the service map: exactly the
platform-matching effective services, in order, each with the shared env
list appended after its own env entries. -/
theorem initMaps_ok_serviceMap {c : Config} {m : ResolvedMaps}
    (h : initMaps c = Except.ok m) :
    m.serviceMap = (c.allServices.filter (·.matchesPlatform)).map (mergeSvc c.env) := by
  unfold initMaps at h
  split at h
  · cases h
  · next sp hsp =>
    split at h
    · cases h
    · next g1 hg1 =>
      split at h
      · cases h
      · next g2 hg2 =>
        split at h
        · cases h
          have := (servicesPhase_ok c.env c.allServices _ _ hsp).1
          simp at this
          exact this
        · cases h

/-! ## Claim C2: env merge between a service and the shared env list

The spec says duplicate keys from the parent (shared) list are dropped.
The code (`sc.Env = append(sc.Env, c.Env...)`) appends the shared list
verbatim; nothing is dropped.  `specMergeEnv` renders the spec's claimed
behavior for comparison. -/

/-- Key of a `KEY=VALUE` environment entry (text before the first `=`). -/
def envKey (kv : String) : String :=
  (kv.toList.takeWhile (fun c => decide (c ≠ '='))).asString

/-- Modelled from the spec (for refutation): the merge C2 claims, where
shared-list entries whose key already occurs in the child list are
dropped. -/
def specMergeEnv (child parent : List String) : List String :=
  child ++ parent.filter (fun kv => !((child.map envKey).contains (envKey kv)))

/-- Concrete configuration refuting C2 as stated: one service with env
`A=1`, shared env `A=2`. -/
def cfgC2 : Config :=
  { env := ["A=2"], groups := [], services := [⟨"s", [], ["A=1"], true⟩]
    importedGroups := [], importedServices := [] }

/-- Claim C2 (counterexample): the resolved service keeps the shared
entry `A=2` even though its own list already has key `A`; the spec's
merge would have dropped it.  So duplicated parent keys are not dropped
by the code. -/
theorem C2_counterexample :
    initMaps cfgC2 = Except.ok ⟨[⟨"s", [], ["A=1", "A=2"], true⟩], []⟩ ∧
    specMergeEnv ["A=1"] ["A=2"] = ["A=1"] ∧
    (["A=1", "A=2"] : List String) ≠ ["A=1"] := by
  refine ⟨rfl, rfl, ?_⟩
  intro h
  cases h

/-- Claim C2 (amended): resolution merges each platform-matching raw
service with the config's shared environment list by appending the
shared list verbatim after the service's own entries; entries whose key
is already present in the service's own list are kept, not dropped. -/
theorem C2_env_merge_appends_shared {c : Config} {m : ResolvedMaps}
    (h : initMaps c = Except.ok m) :
    m.serviceMap = (c.allServices.filter (·.matchesPlatform)).map (mergeSvc c.env) ∧
    ∀ sc ∈ m.serviceMap, ∃ s ∈ c.allServices,
      s.matchesPlatform = true ∧ sc.env = s.env ++ c.env := by
  refine ⟨initMaps_ok_serviceMap h, ?_⟩
  intro sc hsc
  rw [initMaps_ok_serviceMap h] at hsc
  rcases List.mem_map.mp hsc with ⟨s, hs, rfl⟩
  rcases List.mem_filter.mp hs with ⟨hmem, hmatch⟩
  exact ⟨s, hmem, by simpa using hmatch, rfl⟩

theorem C2_witness :
    initMaps cfgC2 = Except.ok ⟨[⟨"s", [], ["A=1", "A=2"], true⟩], []⟩ ∧
    ∀ sc ∈ ([⟨"s", [], ["A=1", "A=2"], true⟩] : List ServiceConfig),
      ∃ s ∈ cfgC2.allServices, s.matchesPlatform = true ∧ sc.env = s.env ++ cfgC2.env :=
  ⟨rfl, (C2_env_merge_appends_shared (c := cfgC2) rfl).2⟩

/-! ## Claim C1: duplicate identifiers

`initMaps` checks each definition's identifiers against the identifiers
already in use, in processing order (platform-matching services and
imported services first, then groups and imported groups), and stops at
the first definition that collides, reporting that definition's
colliding identifiers sorted ascending.  `firstDuplicate` isolates that
behavior at the level of identifier lists. -/

/-- First collision of a stream of identifier lists against an
accumulating set of used names: the colliding identifiers of the first
list that intersects the names added by the lists before it. -/
def firstDuplicate (used : List String) : List (List String) → Option (List String)
  | [] => none
  | d :: rest =>
    let i := intersect used d
    if i = [] then firstDuplicate (used ++ d) rest else some i

/-- Identifier lists contributed to `namesInUse`, in processing order:
platform-matching effective services first, then all effective groups. -/
def effIdents (c : Config) : List (List String) :=
  (c.allServices.filter (·.matchesPlatform)).map (·.idents) ++
    c.allGroupDefs.map (·.idents)

theorem firstDuplicate_append_none {u : List String} {A : List (List String)}
    (B : List (List String)) (h : firstDuplicate u A = none) :
    firstDuplicate u (A ++ B) = firstDuplicate (u ++ A.flatten) B := by
  induction A generalizing u with
  | nil =>
    show firstDuplicate u B = firstDuplicate (u ++ [].flatten) B
    rw [List.flatten_nil, List.append_nil]
  | cons d rest ih =>
    rw [firstDuplicate] at h
    by_cases hi : intersect u d = []
    · simp only [hi, if_pos] at h
      rw [List.cons_append, firstDuplicate]
      simp only [hi, if_pos]
      rw [ih h]
      simp
    · simp [hi] at h

theorem firstDuplicate_append_some {u : List String} {A : List (List String)}
    {i : List String} (B : List (List String))
    (h : firstDuplicate u A = some i) :
    firstDuplicate u (A ++ B) = some i := by
  induction A generalizing u with
  | nil => cases h
  | cons d rest ih =>
    rw [firstDuplicate] at h
    rw [List.cons_append, firstDuplicate]
    by_cases hi : intersect u d = []
    · simp only [hi, if_pos] at h ⊢
      exact ih h
    · simp only [hi, if_neg] at h ⊢
      exact h

theorem firstDuplicate_some_decomp :
    ∀ {L : List (List String)} {u i : List String},
      firstDuplicate u L = some i →
      ∃ pre d post, L = pre ++ d :: post ∧
        firstDuplicate u pre = none ∧
        i = intersect (u ++ pre.flatten) d ∧ i ≠ [] := by
  intro L
  induction L with
  | nil =>
    intro u i h
    cases h
  | cons d rest ih =>
    intro u i h
    rw [firstDuplicate] at h
    by_cases hi : intersect u d = []
    · simp only [hi, if_pos] at h
      rcases ih h with ⟨pre, d', post, hL, hnone, hi', hne⟩
      refine ⟨d :: pre, d', post, by rw [hL]; rfl, ?_, ?_, hne⟩
      · rw [firstDuplicate]
        simp only [hi, if_pos]
        exact hnone
      · rw [hi']
        simp [List.append_assoc]
    · simp only [hi, if_neg] at h
      cases h
      exact ⟨[], d, rest, rfl, rfl, by simp, hi⟩

/-- The service loop faults exactly as `firstDuplicate` over the
identifier lists of its platform-matching services predicts. -/
theorem servicesPhase_firstDuplicate_err (cEnv : List String) :
    ∀ (ss : List ServiceConfig) (st : SvcPhase) (i : List String),
      firstDuplicate st.namesInUse ((ss.filter (·.matchesPlatform)).map (·.idents))
        = some i →
      servicesPhase cEnv ss st = Except.error (dupMsg i) := by
  intro ss
  induction ss with
  | nil =>
    intro st i h
    cases h
  | cons s rest ih =>
    intro st i h
    rw [servicesPhase]
    by_cases hm : s.matchesPlatform
    · simp only [List.filter_cons, hm, if_pos, List.map_cons, firstDuplicate] at h
      by_cases hi : intersect st.namesInUse s.idents = []
      · simp only [hi, if_pos] at h
        rw [processService_ok_of_matches hm hi]
        exact ih _ _ h
      · simp only [hi, if_neg] at h
        cases h
        rw [processService_err_of_dup hm hi]
    · have hm' : s.matchesPlatform = false := Bool.not_eq_true _ ▸ hm
      simp only [List.filter_cons, hm', Bool.false_eq_true, if_neg, if_false] at h
      rw [processService_ok_of_skip hm']
      exact ih _ _ h

/-- When `firstDuplicate` predicts no collision the service loop
completes. -/
theorem servicesPhase_firstDuplicate_ok (cEnv : List String) :
    ∀ (ss : List ServiceConfig) (st : SvcPhase),
      firstDuplicate st.namesInUse ((ss.filter (·.matchesPlatform)).map (·.idents))
        = none →
      ∃ st', servicesPhase cEnv ss st = Except.ok st' := by
  intro ss
  induction ss with
  | nil =>
    intro st _
    exact ⟨st, rfl⟩
  | cons s rest ih =>
    intro st h
    rw [servicesPhase]
    by_cases hm : s.matchesPlatform
    · simp only [List.filter_cons, hm, if_pos, List.map_cons, firstDuplicate] at h
      by_cases hi : intersect st.namesInUse s.idents = []
      · simp only [hi, if_pos] at h
        rw [processService_ok_of_matches hm hi]
        exact ih _ h
      · simp [hi] at h
    · have hm' : s.matchesPlatform = false := Bool.not_eq_true _ ▸ hm
      simp only [List.filter_cons, hm', Bool.false_eq_true, if_neg, if_false] at h
      rw [processService_ok_of_skip hm']
      exact ih _ h

theorem processGroup1_ok {svcs : List ServiceConfig} {skipped : List String}
    {st : GroupPhase1} {g : GroupDef}
    (hi : intersect st.namesInUse g.idents = []) :
    processGroup1 svcs skipped st g =
      Except.ok { groups := st.groups ++ [group1Entry svcs g]
                  orphanNames := addOrphans svcs skipped st.orphanNames g
                  namesInUse := st.namesInUse ++ g.idents } := by
  simp only [processGroup1, hi, if_pos]

theorem processGroup1_err {svcs : List ServiceConfig} {skipped : List String}
    {st : GroupPhase1} {g : GroupDef}
    (hi : intersect st.namesInUse g.idents ≠ []) :
    processGroup1 svcs skipped st g =
      Except.error (dupMsg (intersect st.namesInUse g.idents)) := by
  simp [processGroup1, hi, if_neg]

theorem groupsPhase1_firstDuplicate_err (svcs : List ServiceConfig)
    (skipped : List String) :
    ∀ (gs : List GroupDef) (st : GroupPhase1) (i : List String),
      firstDuplicate st.namesInUse (gs.map (·.idents)) = some i →
      groupsPhase1 svcs skipped gs st = Except.error (dupMsg i) := by
  intro gs
  induction gs with
  | nil =>
    intro st i h
    cases h
  | cons g rest ih =>
    intro st i h
    rw [List.map_cons, firstDuplicate] at h
    rw [groupsPhase1]
    by_cases hi : intersect st.namesInUse g.idents = []
    · simp only [hi, if_pos] at h
      rw [processGroup1_ok hi]
      exact ih _ _ h
    · simp only [hi, if_neg] at h
      cases h
      rw [processGroup1_err hi]

theorem groupsPhase1_firstDuplicate_ok (svcs : List ServiceConfig)
    (skipped : List String) :
    ∀ (gs : List GroupDef) (st : GroupPhase1),
      firstDuplicate st.namesInUse (gs.map (·.idents)) = none →
      ∃ st', groupsPhase1 svcs skipped gs st = Except.ok st' := by
  intro gs
  induction gs with
  | nil =>
    intro st _
    exact ⟨st, rfl⟩
  | cons g rest ih =>
    intro st h
    rw [List.map_cons, firstDuplicate] at h
    rw [groupsPhase1]
    by_cases hi : intersect st.namesInUse g.idents = []
    · simp only [hi, if_pos] at h
      rw [processGroup1_ok hi]
      exact ih _ h
    · simp [hi] at h

/-- Characterization of a completed first group pass. -/
theorem groupsPhase1_ok (svcs : List ServiceConfig) (skipped : List String) :
    ∀ (gs : List GroupDef) (st st' : GroupPhase1),
      groupsPhase1 svcs skipped gs st = Except.ok st' →
      st'.groups = st.groups ++ gs.map (group1Entry svcs) ∧
      st'.orphanNames = gs.foldl (addOrphans svcs skipped) st.orphanNames ∧
      st'.namesInUse = st.namesInUse ++ (gs.map (·.idents)).flatten := by
  intro gs
  induction gs with
  | nil =>
    intro st st' h
    cases h
    simp
  | cons g rest ih =>
    intro st st' h
    rw [groupsPhase1] at h
    by_cases hi : intersect st.namesInUse g.idents = []
    · rw [processGroup1_ok hi] at h
      rcases ih _ _ h with ⟨h1, h2, h3⟩
      refine ⟨?_, ?_, ?_⟩
      · simp [h1]
      · simp [h2]
      · simp [h3]
    · rw [processGroup1_err hi] at h
      cases h

/-- Claim C1 (amended): whenever some identifier of an effective
definition collides with an identifier already in use, `initMaps` fails
with an error listing the colliding identifiers of the first such
definition (in processing order), ascending sorted and comma-joined,
and no resolved graph is produced.  The decomposition conjunct
exhibits the first colliding definition explicitly. -/
theorem initMaps_eq_of_services_err {c : Config} {e : String}
    (h : servicesPhase c.env c.allServices ⟨[], [], []⟩ = Except.error e) :
    initMaps c = Except.error e := by
  simp only [initMaps, h]

theorem initMaps_eq_of_groups1_err {c : Config} {sp : SvcPhase} {e : String}
    (hsp : servicesPhase c.env c.allServices ⟨[], [], []⟩ = Except.ok sp)
    (h : groupsPhase1 sp.svcs sp.servicesSkipped c.allGroupDefs
      ⟨[], [], sp.namesInUse⟩ = Except.error e) :
    initMaps c = Except.error e := by
  simp only [initMaps, hsp, h]

theorem initMaps_eq_of_groups2_err {c : Config} {sp : SvcPhase}
    {g1 : GroupPhase1} {e : String}
    (hsp : servicesPhase c.env c.allServices ⟨[], [], []⟩ = Except.ok sp)
    (hg1 : groupsPhase1 sp.svcs sp.servicesSkipped c.allGroupDefs
      ⟨[], [], sp.namesInUse⟩ = Except.ok g1)
    (h : groupsPhase2 c.allGroupDefs ⟨g1.groups, g1.orphanNames⟩ = Except.error e) :
    initMaps c = Except.error e := by
  simp only [initMaps, hsp, hg1, h]

theorem initMaps_eq_of_phases_ok {c : Config} {sp : SvcPhase}
    {g1 : GroupPhase1} {g2 : GroupPhase2}
    (hsp : servicesPhase c.env c.allServices ⟨[], [], []⟩ = Except.ok sp)
    (hg1 : groupsPhase1 sp.svcs sp.servicesSkipped c.allGroupDefs
      ⟨[], [], sp.namesInUse⟩ = Except.ok g1)
    (hg2 : groupsPhase2 c.allGroupDefs ⟨g1.groups, g1.orphanNames⟩ = Except.ok g2) :
    initMaps c =
      (if g2.orphanNames = [] then Except.ok ⟨sp.svcs, g2.groups⟩
       else Except.error (orphanMsg g2.orphanNames)) := by
  simp only [initMaps, hsp, hg1, hg2]

/-- Decomposition of a successful resolution into its phases. -/
theorem initMaps_ok_decomp {c : Config} {m : ResolvedMaps}
    (h : initMaps c = Except.ok m) :
    ∃ sp g1 g2,
      servicesPhase c.env c.allServices ⟨[], [], []⟩ = Except.ok sp ∧
      groupsPhase1 sp.svcs sp.servicesSkipped c.allGroupDefs
        ⟨[], [], sp.namesInUse⟩ = Except.ok g1 ∧
      groupsPhase2 c.allGroupDefs ⟨g1.groups, g1.orphanNames⟩ = Except.ok g2 ∧
      g2.orphanNames = [] ∧ m = ⟨sp.svcs, g2.groups⟩ := by
  unfold initMaps at h
  split at h
  · cases h
  · next sp hsp =>
    split at h
    · cases h
    · next g1 hg1 =>
      split at h
      · cases h
      · next g2 hg2 =>
        split at h
        · next ho =>
          cases h
          exact ⟨sp, g1, g2, hsp, hg1, hg2, ho, rfl⟩
        · cases h

theorem C1_duplicate_identifiers {c : Config} {i : List String}
    (h : firstDuplicate [] (effIdents c) = some i) :
    initMaps c = Except.error (dupMsg i) ∧
    i ≠ [] ∧
    List.Sorted (fun a b : String => a ≤ b) i ∧
    ∃ pre d post, effIdents c = pre ++ d :: post ∧
      firstDuplicate [] pre = none ∧ i = intersect pre.flatten d := by
  have hdec := firstDuplicate_some_decomp h
  rcases hdec with ⟨pre, d, post, hL, hnone, hi, hne⟩
  rw [List.nil_append] at hi
  refine ⟨?_, hne, ?_, pre, d, post, hL, hnone, hi⟩
  · unfold effIdents at h
    rcases hA : firstDuplicate [] ((c.allServices.filter (·.matchesPlatform)).map (·.idents))
      with _ | j
    · have hrest := firstDuplicate_append_none
        (B := c.allGroupDefs.map (·.idents)) hA
      rw [hrest] at h
      rcases servicesPhase_firstDuplicate_ok c.env c.allServices ⟨[], [], []⟩ hA
        with ⟨sp, hsp⟩
      have hchar := (servicesPhase_ok c.env c.allServices _ _ hsp).2.2
      have hgerr : groupsPhase1 sp.svcs sp.servicesSkipped c.allGroupDefs
          ⟨[], [], sp.namesInUse⟩ = Except.error (dupMsg i) := by
        apply groupsPhase1_firstDuplicate_err
        show firstDuplicate sp.namesInUse _ = some i
        rw [hchar]
        simpa using h
      exact initMaps_eq_of_groups1_err hsp hgerr
    · have : firstDuplicate [] (effIdents c) = some j :=
        firstDuplicate_append_some _ hA
      rw [effIdents] at this
      rw [this] at h
      cases h
      exact initMaps_eq_of_services_err
        (servicesPhase_firstDuplicate_err c.env c.allServices ⟨[], [], []⟩ i hA)
  · rw [hi]
    exact intersect_sorted _ _

/-- Concrete configuration refuting C1 as stated: identifiers `a` and
`b` each collide (two independent service definitions use each), but the
error message produced lists only `a`. -/
def cfgC1 : Config :=
  { env := [], groups := []
    services := [⟨"a", [], [], true⟩, ⟨"b", [], [], true⟩,
                 ⟨"a", [], [], true⟩, ⟨"b", [], [], true⟩]
    importedGroups := [], importedServices := [] }

/-- Claim C1 (counterexample): in `cfgC1` both `a` and `b` are
colliding identifiers, so an error listing every colliding identifier
sorted ascending would read `Duplicate name or alias: a, b`; the code
stops at the first colliding definition and reports only `a`. -/
theorem C1_counterexample :
    initMaps cfgC1 = Except.error "Duplicate name or alias: a" ∧
    effIdents cfgC1 = [["a"], ["b"], ["a"], ["b"]] ∧
    "Duplicate name or alias: a" ≠ "Duplicate name or alias: a, b" := by
  refine ⟨rfl, rfl, ?_⟩
  decide

theorem C1_witness :
    initMaps cfgC1 = Except.error (dupMsg ["a"]) ∧
    (["a"] : List String) ≠ [] ∧
    List.Sorted (fun a b : String => a ≤ b) ["a"] ∧
    ∃ pre d post, effIdents cfgC1 = pre ++ d :: post ∧
      firstDuplicate [] pre = none ∧ ["a"] = intersect pre.flatten d :=
  C1_duplicate_identifiers (c := cfgC1) (i := ["a"]) rfl

/-! ## Claim C3: group containment cycles

`hasChildCycle` performs an unbounded depth-first walk over the
currently assigned `Groups` pointers.  The proofs below relate the
fueled embedding to reachability: soundness at any fuel, completeness
for walks of length below the fuel, and the fact that detecting walks
can always be taken repetition-free (so `groupCycleFuel` suffices). -/

/-- Names of the effective group definitions. -/
def groupNames (c : Config) : List String :=
  c.allGroupDefs.map (·.name)

/-- One containment step in the currently assigned group graph. -/
def StepRel (gs : List ServiceGroupConfig) (a b : String) : Prop :=
  b ∈ groupsOf gs a

/-- Direct containment between groups as declared by the raw
definitions: group `a` lists child `b` and `b` is a group name. -/
def childRelB (c : Config) (a b : String) : Bool :=
  c.allGroupDefs.any (fun g => g.name == a && g.children.contains b) &&
    (groupNames c).contains b

/-- Propositional form of `childRelB`. -/
def ChildRel (c : Config) (a b : String) : Prop := childRelB c a b = true

/-- A group contains itself, directly or via a chain of children. -/
def SelfContaining (c : Config) (g : String) : Prop :=
  Relation.TransGen (ChildRel c) g g

/-- Walks with an explicit node list: `WalkL R a l b` means the walk
starts at `a`, visits the nodes of `l` in order, and ends at `b` (so
`b` is the last entry of `l` when `l` is nonempty). -/
def WalkL (R : String → String → Prop) : String → List String → String → Prop
  | a, [], b => a = b
  | a, x :: l, b => R a x ∧ WalkL R x l b

theorem walkL_of_reflTransGen {R : String → String → Prop} {a b : String}
    (h : Relation.ReflTransGen R a b) : ∃ l, WalkL R a l b := by
  induction h using Relation.ReflTransGen.head_induction_on with
  | refl => exact ⟨[], rfl⟩
  | head hstep _ ih =>
    rcases ih with ⟨l, hw⟩
    exact ⟨_ :: l, hstep, hw⟩

theorem reflTransGen_of_walkL {R : String → String → Prop} :
    ∀ {l : List String} {a b : String},
      WalkL R a l b → Relation.ReflTransGen R a b := by
  intro l
  induction l with
  | nil =>
    intro a b h
    cases h
    rfl
  | cons x t ih =>
    intro a b h
    exact Relation.ReflTransGen.head h.1 (ih h.2)

theorem walkL_mono {R S : String → String → Prop}
    (hRS : ∀ a b, R a b → S a b) :
    ∀ {l : List String} {a b : String}, WalkL R a l b → WalkL S a l b := by
  intro l
  induction l with
  | nil =>
    intro a b h
    exact h
  | cons x t ih =>
    intro a b h
    exact ⟨hRS _ _ h.1, ih h.2⟩

theorem walkL_append_split {R : String → String → Prop} :
    ∀ (l1 : List String) (x : String) (l2 : List String) {a b : String},
      WalkL R a (l1 ++ x :: l2) b → WalkL R a (l1 ++ [x]) x ∧ WalkL R x l2 b := by
  intro l1
  induction l1 with
  | nil =>
    intro x l2 a b h
    exact ⟨⟨h.1, rfl⟩, h.2⟩
  | cons y t ih =>
    intro x l2 a b h
    rcases ih x l2 h.2 with ⟨h1, h2⟩
    exact ⟨⟨h.1, h1⟩, h2⟩

theorem walkL_append_join {R : String → String → Prop} :
    ∀ (l1 : List String) (x : String) (l2 : List String) {a b : String},
      WalkL R a (l1 ++ [x]) x → WalkL R x l2 b →
      WalkL R a (l1 ++ x :: l2) b := by
  intro l1
  induction l1 with
  | nil =>
    intro x l2 a b h1 h2
    exact ⟨h1.1, h2⟩
  | cons y t ih =>
    intro x l2 a b h1 h2
    exact ⟨h1.1, ih x l2 h1.2 h2⟩

/-- A list that is not duplicate-free contains some element twice. -/
theorem not_nodup_decomp :
    ∀ {l : List String}, ¬ l.Nodup →
      ∃ x l1 l2 l3, l = l1 ++ x :: (l2 ++ x :: l3) := by
  intro l
  induction l with
  | nil =>
    intro h
    exact absurd List.nodup_nil h
  | cons y t ih =>
    intro h
    rw [List.nodup_cons] at h
    push_neg at h
    by_cases hy : y ∈ t
    · rcases List.append_of_mem hy with ⟨t1, t2, rfl⟩
      exact ⟨y, [], t1, t2, rfl⟩
    · rcases ih (h hy) with ⟨x, l1, l2, l3, rfl⟩
      exact ⟨x, y :: l1, l2, l3, rfl⟩

/-- Every walk can be shortened to a repetition-free walk with the same
endpoints. -/
theorem walkL_to_nodup {R : String → String → Prop} :
    ∀ (n : Nat) {l : List String} {a b : String}, l.length ≤ n →
      WalkL R a l b →
      ∃ l', WalkL R a l' b ∧ (a :: l').Nodup ∧ l'.length ≤ l.length := by
  intro n
  induction n with
  | zero =>
    intro l a b hlen hw
    rw [Nat.le_zero, List.length_eq_zero] at hlen
    subst hlen
    exact ⟨[], hw, List.nodup_cons.mpr ⟨List.not_mem_nil _, List.nodup_nil⟩,
      Nat.le_refl _⟩
  | succ n ih =>
    intro l a b hlen hw
    by_cases hnd : (a :: l).Nodup
    · exact ⟨l, hw, hnd, Nat.le_refl _⟩
    · rw [List.nodup_cons] at hnd
      push_neg at hnd
      by_cases ha : a ∈ l
      · rcases List.append_of_mem ha with ⟨l1, l2, rfl⟩
        have h2 := (walkL_append_split l1 a l2 hw).2
        have hlen2 : l2.length ≤ n := by
          have := hlen
          simp only [List.length_append, List.length_cons] at this
          omega
        rcases ih hlen2 h2 with ⟨l', hw', hnd', hle⟩
        refine ⟨l', hw', hnd', ?_⟩
        simp only [List.length_append, List.length_cons]
        omega
      · rcases not_nodup_decomp (hnd ha) with ⟨x, l1, l2, l3, rfl⟩
        have hsplit1 := walkL_append_split l1 x (l2 ++ x :: l3) hw
        have hsplit2 := walkL_append_split l2 x l3 hsplit1.2
        have hjoin := walkL_append_join l1 x l3 hsplit1.1 hsplit2.2
        have hlen3 : (l1 ++ x :: l3).length ≤ n := by
          have := hlen
          simp only [List.length_append, List.length_cons] at this ⊢
          omega
        rcases ih hlen3 hjoin with ⟨l', hw', hnd', hle⟩
        refine ⟨l', hw', hnd', ?_⟩
        simp only [List.length_append, List.length_cons] at hle ⊢
        omega

/-- Bounded reachability in the assigned group graph: a walk of at most
`n` steps. -/
def ReachN (gs : List ServiceGroupConfig) : Nat → String → String → Prop
  | 0, a, b => a = b
  | n + 1, a, b => a = b ∨ ∃ x, StepRel gs a x ∧ ReachN gs n x b

theorem reachN_succ {gs : List ServiceGroupConfig} :
    ∀ {n : Nat} {a b : String}, ReachN gs n a b → ReachN gs (n + 1) a b := by
  intro n
  induction n with
  | zero =>
    intro a b h
    exact Or.inl h
  | succ n ih =>
    intro a b h
    rcases h with h | ⟨x, hx, hr⟩
    · exact Or.inl h
    · exact Or.inr ⟨x, hx, ih hr⟩

theorem reachN_mono {gs : List ServiceGroupConfig} {m n : Nat}
    (hmn : m ≤ n) : ∀ {a b : String}, ReachN gs m a b → ReachN gs n a b := by
  intro a b h
  induction hmn with
  | refl => exact h
  | step _ ih => exact reachN_succ ih

theorem walkL_reachN {gs : List ServiceGroupConfig} :
    ∀ {l : List String} {a b : String},
      WalkL (StepRel gs) a l b → ReachN gs l.length a b := by
  intro l
  induction l with
  | nil =>
    intro a b h
    exact h
  | cons x t ih =>
    intro a b h
    exact Or.inr ⟨x, h.1, ih h.2⟩

theorem hasChildCycle_sound {gs : List ServiceGroupConfig} :
    ∀ {fuel : Nat} {p : String} {ch : List String},
      hasChildCycle gs fuel p ch = true →
      ∃ x ∈ ch, Relation.ReflTransGen (StepRel gs) x p := by
  intro fuel
  induction fuel with
  | zero =>
    intro p ch h
    cases h
  | succ n ih =>
    intro p ch h
    rw [hasChildCycle, List.any_eq_true] at h
    rcases h with ⟨sg, hsg, hcase⟩
    rw [Bool.or_eq_true] at hcase
    rcases hcase with hcase | hcase
    · rw [beq_iff_eq] at hcase
      exact ⟨sg, hsg, hcase ▸ Relation.ReflTransGen.refl⟩
    · rcases ih hcase with ⟨y, hy, hreach⟩
      exact ⟨sg, hsg, Relation.ReflTransGen.head hy hreach⟩

theorem hasChildCycle_complete {gs : List ServiceGroupConfig} :
    ∀ {n : Nat} {p x : String} {ch : List String},
      x ∈ ch → ReachN gs n x p →
      hasChildCycle gs (n + 1) p ch = true := by
  intro n
  induction n with
  | zero =>
    intro p x ch hx hr
    have hxp : x = p := hr
    subst hxp
    rw [hasChildCycle, List.any_eq_true]
    exact ⟨x, hx, by simp⟩
  | succ n ih =>
    intro p x ch hx hr
    rcases hr with rfl | ⟨y, hy, hr⟩
    · rw [hasChildCycle, List.any_eq_true]
      exact ⟨x, hx, by simp⟩
    · rw [hasChildCycle, List.any_eq_true]
      refine ⟨x, hx, ?_⟩
      rw [Bool.or_eq_true]
      exact Or.inr (ih hy hr)

theorem find?_name_isSome_iff {gs : List ServiceGroupConfig} {n : String} :
    (gs.find? (fun g => g.name == n)).isSome = true ↔ n ∈ gs.map (·.name) := by
  rw [List.find?_isSome]
  constructor
  · rintro ⟨g, hg, hname⟩
    rw [beq_iff_eq] at hname
    exact List.mem_map.mpr ⟨g, hg, hname⟩
  · rintro h
    rcases List.mem_map.mp h with ⟨g, hg, hname⟩
    exact ⟨g, hg, beq_iff_eq.mpr hname⟩

theorem groupsOf_eq_nil_of_not_mem {gs : List ServiceGroupConfig} {n : String}
    (h : n ∉ gs.map (·.name)) : groupsOf gs n = [] := by
  rcases hf : gs.find? (fun g => g.name == n) with _ | g
  · rw [groupsOf, hf]
  · exact absurd (find?_name_isSome_iff.mp (by rw [hf]; rfl)) h

theorem stepRel_src_mem {gs : List ServiceGroupConfig} {a b : String}
    (h : StepRel gs a b) : a ∈ gs.map (·.name) := by
  by_contra hmem
  rw [StepRel, groupsOf_eq_nil_of_not_mem hmem] at h
  cases h

theorem setGroups_names (gs : List ServiceGroupConfig) (n : String)
    (c : List String) :
    (setGroups gs n c).map (·.name) = gs.map (·.name) := by
  rw [setGroups, List.map_map]
  apply List.map_congr_left
  intro g _
  simp only [Function.comp_apply]
  split
  · rfl
  · rfl

theorem groupsOf_setGroups_self :
    ∀ {gs : List ServiceGroupConfig} {n : String} {c : List String},
      n ∈ gs.map (·.name) → groupsOf (setGroups gs n c) n = c := by
  intro gs
  induction gs with
  | nil =>
    intro n c h
    cases h
  | cons g rest ih =>
    intro n c h
    rw [setGroups, List.map_cons, groupsOf]
    by_cases hg : g.name = n
    · rw [List.find?_cons_of_pos]
      · simp [hg]
      · simp [hg]
    · rw [List.find?_cons_of_neg]
      · have hmem : n ∈ rest.map (·.name) := by
          rcases List.mem_cons.mp h with h' | h'
          · exact absurd h'.symm hg
          · exact h'
        have hrec := ih (n := n) (c := c) hmem
        rw [setGroups, groupsOf] at hrec
        exact hrec
      · simp [hg]

theorem groupsOf_setGroups_other :
    ∀ {gs : List ServiceGroupConfig} {n m : String} {c : List String},
      m ≠ n → groupsOf (setGroups gs n c) m = groupsOf gs m := by
  intro gs
  induction gs with
  | nil =>
    intro n m c h
    rfl
  | cons g rest ih =>
    intro n m c h
    rw [setGroups, List.map_cons, groupsOf, groupsOf]
    have hname : (if (g.name == n) = true then { g with groups := c } else g).name
        = g.name := by
      split
      · rfl
      · rfl
    by_cases hg : g.name = m
    · have hupd : (if (g.name == n) = true then { g with groups := c } else g) = g := by
        apply if_neg
        intro hcond
        rw [beq_iff_eq] at hcond
        exact h (hg.symm.trans hcond)
      rw [hupd, List.find?_cons_of_pos (p := fun g' => g'.name == m) (a := g) _
          (beq_iff_eq.mpr hg),
        List.find?_cons_of_pos (p := fun g' => g'.name == m) (a := g) _
          (beq_iff_eq.mpr hg)]
    · have hLpred : ¬ (((if (g.name == n) = true then { g with groups := c } else g).name
          == m) = true) := by
        rw [hname]
        simp [hg]
      generalize hU : (if (g.name == n) = true then
        ({ g with groups := c } : ServiceGroupConfig) else g) = u at hLpred ⊢
      rw [List.find?_cons_of_neg (p := fun g' => g'.name == m) (a := u) _ hLpred,
        List.find?_cons_of_neg (p := fun g' => g'.name == m) (a := g) _
          (show ¬ ((g.name == m) = true) by simp [hg])]
      have hrec := ih (n := n) (m := m) (c := c) h
      rw [setGroups, groupsOf, groupsOf] at hrec
      exact hrec

theorem walkL_concat {R : String → String → Prop} :
    ∀ {l : List String} {a b : String} {l2 : List String} {c : String},
      WalkL R a l b → WalkL R b l2 c → WalkL R a (l ++ l2) c := by
  intro l
  induction l with
  | nil =>
    intro a b l2 c h1 h2
    cases h1
    exact h2
  | cons y t ih =>
    intro a b l2 c h1 h2
    exact ⟨h1.1, ih h1.2 h2⟩

theorem walkL_last {R : String → String → Prop} {l : List String}
    {a x b : String} (h : WalkL R a (l ++ [x]) b) : x = b :=
  (walkL_append_split l x [] h).2

/-- Transfer a walk between step relations that agree on every source
the walk departs from, when the walk avoids `t` entirely. -/
theorem walkL_transfer_avoid {R R' : String → String → Prop} {t : String}
    (hag : ∀ p q, p ≠ t → R' p q → R p q) :
    ∀ {l : List String} {a b : String},
      WalkL R' a l b → (∀ s ∈ a :: l, s ≠ t) → WalkL R a l b := by
  intro l
  induction l with
  | nil =>
    intro a b h _
    exact h
  | cons y rest ih =>
    intro a b h hs
    refine ⟨hag _ _ (hs a (List.mem_cons_self _ _)) h.1, ?_⟩
    exact ih h.2 (fun s hmem => hs s (List.mem_cons_of_mem _ hmem))

/-- Transfer a walk ending at `t` whose sources all differ from `t`. -/
theorem walkL_transfer_concat {R R' : String → String → Prop} {t : String}
    (hag : ∀ p q, p ≠ t → R' p q → R p q) :
    ∀ {l3 : List String} {y : String},
      WalkL R' y (l3 ++ [t]) t → (∀ s ∈ y :: l3, s ≠ t) →
      WalkL R y (l3 ++ [t]) t := by
  intro l3
  induction l3 with
  | nil =>
    intro y h hs
    exact ⟨hag _ _ (hs y (List.mem_cons_self _ _)) h.1, rfl⟩
  | cons z rest ih =>
    intro y h hs
    refine ⟨hag _ _ (hs y (List.mem_cons_self _ _)) h.1, ?_⟩
    exact ih h.2 (fun s hmem => hs s (List.mem_cons_of_mem _ hmem))

/-- Adding the checked children of one group to an acyclic assigned
graph keeps it acyclic: the cycle check that just returned `false`
would have seen any walk closing a cycle through the updated group,
because such a walk can be taken repetition-free, and repetition-free
walks fit in `groupCycleFuel`. -/
theorem acyclic_insert {gs : List ServiceGroupConfig} {gname : String}
    {cg : List String}
    (hmem : gname ∈ gs.map (·.name))
    (hchk : hasChildCycle gs (groupCycleFuel gs) gname cg = false)
    (hacyc : ∀ x, ¬ Relation.TransGen (StepRel gs) x x) :
    ∀ x, ¬ Relation.TransGen (StepRel (setGroups gs gname cg)) x x := by
  intro x htg
  have hag : ∀ p q, p ≠ gname → StepRel (setGroups gs gname cg) p q → StepRel gs p q := by
    intro p q hp hstep
    rw [StepRel, groupsOf_setGroups_other hp] at hstep
    exact hstep
  rcases Relation.TransGen.head'_iff.mp htg with ⟨y0, hstep0, hrtg⟩
  rcases walkL_of_reflTransGen hrtg with ⟨l, hw⟩
  have hcycle : WalkL (StepRel (setGroups gs gname cg)) x (y0 :: l) x := ⟨hstep0, hw⟩
  by_cases hgm : gname ∈ x :: y0 :: l
  · -- rotate the cycle to start at gname
    have hrot : ∃ L, L ≠ [] ∧ WalkL (StepRel (setGroups gs gname cg)) gname L gname := by
      rcases List.mem_cons.mp hgm with hgx | hgtail
      · exact ⟨y0 :: l, List.cons_ne_nil _ _, hgx ▸ hcycle⟩
      · rcases List.append_of_mem hgtail with ⟨l1, l2, hsplit⟩
        rw [hsplit] at hcycle
        have hparts := walkL_append_split l1 gname l2 hcycle
        refine ⟨l2 ++ (l1 ++ [gname]), ?_, walkL_concat hparts.2 hparts.1⟩
        intro hnil
        rcases List.append_eq_nil.mp hnil with ⟨_, h2⟩
        rcases List.append_eq_nil.mp h2 with ⟨_, h3⟩
        cases h3
    rcases hrot with ⟨L, hLne, hLw⟩
    rcases L with _ | ⟨y', L'⟩
    · exact hLne rfl
    · have hy'cg : y' ∈ cg := by
        have := hLw.1
        rw [StepRel, groupsOf_setGroups_self hmem] at this
        exact this
      by_cases hy'g : y' = gname
      · -- immediate self loop: the check sees it at depth zero
        have : hasChildCycle gs (groupCycleFuel gs) gname cg = true := by
          apply hasChildCycle_complete hy'cg
          exact reachN_mono (Nat.zero_le _) (show ReachN gs 0 y' gname from hy'g)
        rw [this] at hchk
        cases hchk
      · -- strip the walk to a repetition-free one, transfer it to the
        -- old graph, and bound its length by the number of groups
        have hw' : WalkL (StepRel (setGroups gs gname cg)) y' L' gname := hLw.2
        rcases walkL_to_nodup L'.length (Nat.le_refl _) hw' with ⟨l'', hw'', hnd'', _⟩
        rcases List.eq_nil_or_concat l'' with rfl | ⟨l3, z, rfl⟩
        · exact hy'g hw''
        · rw [List.concat_eq_append] at hw'' hnd''
          have hz : z = gname := walkL_last hw''
          rw [hz] at hw'' hnd''
          have hsrc : ∀ s ∈ y' :: l3, s ≠ gname := by
            intro s hs hsg
            subst hsg
            rw [List.nodup_cons] at hnd''
            rcases List.mem_cons.mp hs with h1 | h1
            · exact hy'g h1.symm
            · have : s ∈ l3 ++ [s] := List.mem_append_left _ h1
              exact (List.nodup_append.mp hnd''.2).2.2 h1 (List.mem_singleton_self _)
          have hwold : WalkL (StepRel gs) y' (l3 ++ [gname]) gname :=
            walkL_transfer_concat hag hw'' hsrc
          have hsubnames : ∀ s ∈ y' :: (l3 ++ [gname]), s ∈ gs.map (·.name) := by
            intro s hs
            rcases List.mem_cons.mp hs with rfl | hs2
            · -- y' is the source of the first step of the old walk
              rcases l3 with _ | ⟨w, l4⟩
              · exact stepRel_src_mem hwold.1
              · exact stepRel_src_mem hwold.1
            · rcases List.mem_append.mp hs2 with hs3 | hs3
              · -- an interior node is the source of a later step
                rcases List.append_of_mem hs3 with ⟨p1, p2, hp⟩
                rw [hp] at hwold
                have : WalkL (StepRel gs) y' (p1 ++ s :: (p2 ++ [gname])) gname := by
                  simpa using hwold
                have hsp := walkL_append_split p1 s (p2 ++ [gname]) this
                rcases p2 with _ | ⟨q, p3⟩
                · exact stepRel_src_mem hsp.2.1
                · exact stepRel_src_mem hsp.2.1
              · rw [List.mem_singleton.mp hs3]
                exact hmem
          have hndall : (y' :: (l3 ++ [gname])).Nodup := hnd''
          have hlen : (y' :: (l3 ++ [gname])).length ≤ gs.length := by
            have hsub := List.subperm_of_subset hndall
              (fun s hs => hsubnames s hs)
            have := (hsub).length_le
            simpa using this
          have hreach : ReachN gs (l3 ++ [gname]).length y' gname :=
            walkL_reachN hwold
          have hreach2 : ReachN gs gs.length y' gname := by
            apply reachN_mono _ hreach
            simp only [List.length_cons, List.length_append, List.length_singleton] at hlen ⊢
            omega
          have : hasChildCycle gs (groupCycleFuel gs) gname cg = true :=
            hasChildCycle_complete hy'cg hreach2
          rw [this] at hchk
          cases hchk
  · -- the cycle avoids gname entirely, so it lives in the old graph
    have hold : WalkL (StepRel gs) x (y0 :: l) x :=
      walkL_transfer_avoid hag hcycle (fun s hs hseq => hgm (hseq ▸ hs))
    exact hacyc x (Relation.TransGen.head'_iff.mpr
      ⟨y0, hold.1, reflTransGen_of_walkL hold.2⟩)

/-- Child filter used by pass two: the child names that are group
names. -/
def isGroupName (gs : List ServiceGroupConfig) (n : String) : Bool :=
  (gs.find? (fun g => g.name == n)).isSome

theorem processChildren2_ok_char {gs : List ServiceGroupConfig} {parent : String} :
    ∀ {children cg0 o0 cg o : List String},
      processChildren2 gs parent children (cg0, o0) = Except.ok (cg, o) →
      cg = cg0 ++ children.filter (isGroupName gs) ∧
      o = children.foldl
        (fun oo n => if isGroupName gs n then oo.erase n else oo) o0 ∧
      (hasChildCycle gs (groupCycleFuel gs) parent
          (cg0 ++ children.filter (isGroupName gs)) = false ∨ children = []) := by
  intro children
  induction children with
  | nil =>
    intro cg0 o0 cg o h
    rw [processChildren2] at h
    cases h
    exact ⟨by simp, rfl, Or.inr rfl⟩
  | cons n rest ih =>
    intro cg0 o0 cg o h
    rw [processChildren2] at h
    by_cases hf : isGroupName gs n
    · rw [isGroupName] at hf
      simp only [hf, if_pos] at h
      by_cases hc : hasChildCycle gs (groupCycleFuel gs) parent (cg0 ++ [n]) = true
      · rw [if_pos hc] at h
        cases h
      · rw [if_neg hc] at h
        rcases ih h with ⟨h1, h2, h3⟩
        refine ⟨?_, ?_, ?_⟩
        · rw [h1, List.filter_cons]
          simp [isGroupName, hf]
        · rw [h2, List.foldl_cons]
          simp [isGroupName, hf]
        · left
          rcases h3 with h3 | h3
          · rw [List.filter_cons]
            simp only [isGroupName, hf, if_pos]
            simpa using h3
          · subst h3
            rw [List.filter_cons]
            simp only [isGroupName, hf, if_pos]
            simpa using Bool.not_eq_true _ ▸ hc
    · rw [isGroupName, Bool.not_eq_true] at hf
      simp only [hf, Bool.false_eq_true, if_false] at h
      by_cases hc : hasChildCycle gs (groupCycleFuel gs) parent cg0 = true
      · rw [if_pos hc] at h
        cases h
      · rw [if_neg hc] at h
        rcases ih h with ⟨h1, h2, h3⟩
        refine ⟨?_, ?_, ?_⟩
        · rw [h1, List.filter_cons]
          simp [isGroupName, hf]
        · rw [h2, List.foldl_cons]
          simp [isGroupName, hf]
        · left
          rcases h3 with h3 | h3
          · rw [List.filter_cons]
            simp only [isGroupName, hf, Bool.false_eq_true, if_false]
            exact h3
          · subst h3
            rw [List.filter_cons]
            simp only [isGroupName, hf, Bool.false_eq_true, if_false]
            simpa using Bool.not_eq_true _ ▸ hc

theorem processChildren2_err {gs : List ServiceGroupConfig} {parent : String} :
    ∀ {children cg0 o0 : List String} {e : String},
      processChildren2 gs parent children (cg0, o0) = Except.error e →
      e = "group cycle: " ++ parent ∧
      ∃ cg', (∀ x ∈ cg', x ∈ cg0 ∨ (x ∈ children ∧ x ∈ gs.map (·.name))) ∧
        hasChildCycle gs (groupCycleFuel gs) parent cg' = true := by
  intro children
  induction children with
  | nil =>
    intro cg0 o0 e h
    rw [processChildren2] at h
    cases h
  | cons n rest ih =>
    intro cg0 o0 e h
    rw [processChildren2] at h
    by_cases hf : (gs.find? (fun g => g.name == n)).isSome = true
    · simp only [hf, if_pos] at h
      by_cases hc : hasChildCycle gs (groupCycleFuel gs) parent (cg0 ++ [n]) = true
      · rw [if_pos hc] at h
        cases h
        refine ⟨rfl, cg0 ++ [n], ?_, hc⟩
        intro x hx
        rcases List.mem_append.mp hx with hx | hx
        · exact Or.inl hx
        · rw [List.mem_singleton.mp hx]
          exact Or.inr ⟨List.mem_cons_self _ _, find?_name_isSome_iff.mp hf⟩
      · rw [if_neg hc] at h
        rcases ih h with ⟨he, cg', hmem, hcyc⟩
        refine ⟨he, cg', ?_, hcyc⟩
        intro x hx
        rcases hmem x hx with hx2 | hx2
        · rcases List.mem_append.mp hx2 with hx3 | hx3
          · exact Or.inl hx3
          · rw [List.mem_singleton.mp hx3]
            exact Or.inr ⟨List.mem_cons_self _ _, find?_name_isSome_iff.mp hf⟩
        · exact Or.inr ⟨List.mem_cons_of_mem _ hx2.1, hx2.2⟩
    · rw [Bool.not_eq_true] at hf
      simp only [hf, Bool.false_eq_true, if_false] at h
      by_cases hc : hasChildCycle gs (groupCycleFuel gs) parent cg0 = true
      · rw [if_pos hc] at h
        cases h
        exact ⟨rfl, cg0, fun x hx => Or.inl hx, hc⟩
      · rw [if_neg hc] at h
        rcases ih h with ⟨he, cg', hmem, hcyc⟩
        refine ⟨he, cg', ?_, hcyc⟩
        intro x hx
        rcases hmem x hx with hx2 | hx2
        · exact Or.inl hx2
        · exact Or.inr ⟨List.mem_cons_of_mem _ hx2.1, hx2.2⟩

theorem setGroups_id_of_not_mem {gs : List ServiceGroupConfig} {n : String}
    {c : List String} (h : n ∉ gs.map (·.name)) : setGroups gs n c = gs := by
  rw [setGroups]
  conv_rhs => rw [← List.map_id gs]
  apply List.map_congr_left
  intro g hg
  have : g.name ≠ n := fun heq => h (List.mem_map.mpr ⟨g, hg, heq⟩)
  simp [this]

theorem groupsPhase2_cons_err {st : GroupPhase2} {g : GroupDef}
    {rest : List GroupDef} {e : String}
    (hp : processChildren2 st.groups g.name g.children ([], st.orphanNames)
      = Except.error e) :
    groupsPhase2 (g :: rest) st = Except.error e := by
  simp only [groupsPhase2, hp]

theorem groupsPhase2_cons_ok {st : GroupPhase2} {g : GroupDef}
    {rest : List GroupDef} {cg orph : List String}
    (hp : processChildren2 st.groups g.name g.children ([], st.orphanNames)
      = Except.ok (cg, orph)) :
    groupsPhase2 (g :: rest) st =
      groupsPhase2 rest { groups := setGroups st.groups g.name cg
                          orphanNames := orph } := by
  simp only [groupsPhase2, hp]

theorem groupsPhase2_ok_names :
    ∀ {D : List GroupDef} {st st' : GroupPhase2},
      groupsPhase2 D st = Except.ok st' →
      st'.groups.map (·.name) = st.groups.map (·.name) := by
  intro D
  induction D with
  | nil =>
    intro st st' h
    cases h
    rfl
  | cons g rest ih =>
    intro st st' h
    rcases hp : processChildren2 st.groups g.name g.children ([], st.orphanNames)
      with e | ⟨cg, orph⟩
    · rw [groupsPhase2_cons_err hp] at h
      cases h
    · rw [groupsPhase2_cons_ok hp] at h
      rw [ih h]
      exact setGroups_names _ _ _

theorem groupsPhase2_groupsOf_not_mem :
    ∀ {D : List GroupDef} {st st' : GroupPhase2},
      groupsPhase2 D st = Except.ok st' →
      ∀ n, n ∉ D.map (·.name) → groupsOf st'.groups n = groupsOf st.groups n := by
  intro D
  induction D with
  | nil =>
    intro st st' h n _
    cases h
    rfl
  | cons g rest ih =>
    intro st st' h n hn
    rw [List.map_cons, List.mem_cons] at hn
    push_neg at hn
    rcases hp : processChildren2 st.groups g.name g.children ([], st.orphanNames)
      with e | ⟨cg, orph⟩
    · rw [groupsPhase2_cons_err hp] at h
      cases h
    · rw [groupsPhase2_cons_ok hp] at h
      rw [ih h n hn.2]
      exact groupsOf_setGroups_other hn.1

theorem isGroupName_eq_names {gs gs' : List ServiceGroupConfig}
    (h : gs.map (·.name) = gs'.map (·.name)) (n : String) :
    isGroupName gs n = isGroupName gs' n := by
  rcases hb : isGroupName gs' n with _ | _
  · rcases hb2 : isGroupName gs n with _ | _
    · rfl
    · have := find?_name_isSome_iff.mp hb2
      rw [h] at this
      have := find?_name_isSome_iff.mpr this
      rw [isGroupName] at hb
      rw [hb] at this
      cases this
  · rw [isGroupName] at hb ⊢
    apply find?_name_isSome_iff.mpr
    rw [h]
    exact find?_name_isSome_iff.mp hb

theorem groupsPhase2_groupsOf_mem :
    ∀ {D : List GroupDef} {st st' : GroupPhase2},
      groupsPhase2 D st = Except.ok st' →
      (D.map (·.name)).Nodup →
      (∀ g ∈ D, g.name ∈ st.groups.map (·.name)) →
      ∀ g ∈ D, groupsOf st'.groups g.name
        = g.children.filter (isGroupName st.groups) := by
  intro D
  induction D with
  | nil =>
    intro st st' _ _ _ g hg
    cases hg
  | cons g0 rest ih =>
    intro st st' h hnd hD g hg
    rcases hp : processChildren2 st.groups g0.name g0.children ([], st.orphanNames)
      with e | ⟨cg, orph⟩
    · rw [groupsPhase2_cons_err hp] at h
      cases h
    · rw [groupsPhase2_cons_ok hp] at h
      rcases processChildren2_ok_char hp with ⟨hcg, _, _⟩
      rw [List.nil_append] at hcg
      rw [List.map_cons, List.nodup_cons] at hnd
      rcases List.mem_cons.mp hg with rfl | hgrest
      · have hnot : g.name ∉ rest.map (·.name) := hnd.1
        rw [groupsPhase2_groupsOf_not_mem h _ hnot]
        show groupsOf (setGroups st.groups g.name cg) g.name = _
        rw [groupsOf_setGroups_self (hD g (List.mem_cons_self _ _)), hcg]
      · have hD' : ∀ g' ∈ rest, g'.name ∈
            (setGroups st.groups g0.name cg).map (·.name) := by
          intro g' hg'
          rw [setGroups_names]
          exact hD g' (List.mem_cons_of_mem _ hg')
        have := ih h hnd.2 hD' g hgrest
        rw [this]
        apply List.filter_congr
        intro n _
        exact isGroupName_eq_names (setGroups_names _ _ _) n

/-- Soundness of the cycle errors of pass two: any raised cycle error
names a group that transitively contains itself. -/
theorem groupsPhase2_err_sound {c : Config} :
    ∀ {D : List GroupDef} {st : GroupPhase2} {e : String},
      (∀ g ∈ D, g ∈ c.allGroupDefs) →
      st.groups.map (·.name) = groupNames c →
      (∀ a b, StepRel st.groups a b → ChildRel c a b) →
      groupsPhase2 D st = Except.error e →
      ∃ gname, e = "group cycle: " ++ gname ∧ SelfContaining c gname := by
  intro D
  induction D with
  | nil =>
    intro st e _ _ _ h
    cases h
  | cons g rest ih =>
    intro st e hD hnames hinv h
    have hgdef : g ∈ c.allGroupDefs := hD g (List.mem_cons_self _ _)
    have hchild : ∀ x, x ∈ g.children → x ∈ groupNames c → ChildRel c g.name x := by
      intro x hx hxn
      rw [ChildRel, childRelB, Bool.and_eq_true, List.any_eq_true]
      refine ⟨⟨g, hgdef, ?_⟩, ?_⟩
      · rw [Bool.and_eq_true, beq_iff_eq, List.elem_iff]
        exact ⟨rfl, hx⟩
      · rw [List.elem_iff]
        exact hxn
    rcases hp : processChildren2 st.groups g.name g.children ([], st.orphanNames)
      with e0 | ⟨cg, orph⟩
    · rw [groupsPhase2_cons_err hp] at h
      cases h
      rcases processChildren2_err hp with ⟨he, cg', hmem, hcyc⟩
      rcases hasChildCycle_sound hcyc with ⟨x, hx, hreach⟩
      rcases hmem x hx with hx2 | hx2
      · cases hx2
      · have hcr : ChildRel c g.name x :=
          hchild x hx2.1 (hnames ▸ hx2.2)
        have hrtg : Relation.ReflTransGen (ChildRel c) x g.name :=
          Relation.ReflTransGen.mono (fun a b => hinv a b) hreach
        exact ⟨g.name, he, Relation.TransGen.head' hcr hrtg⟩
    · rw [groupsPhase2_cons_ok hp] at h
      rcases processChildren2_ok_char hp with ⟨hcg, _, _⟩
      rw [List.nil_append] at hcg
      have hnames' : (setGroups st.groups g.name cg).map (·.name) = groupNames c := by
        rw [setGroups_names]
        exact hnames
      have hinv' : ∀ a b, StepRel (setGroups st.groups g.name cg) a b →
          ChildRel c a b := by
        intro a b hstep
        by_cases ha : a = g.name
        · subst ha
          have hmem2 : g.name ∈ st.groups.map (·.name) := by
            rw [hnames]
            exact List.mem_map.mpr ⟨g, hgdef, rfl⟩
          rw [StepRel, groupsOf_setGroups_self hmem2, hcg, List.mem_filter] at hstep
          refine hchild b hstep.1 ?_
          rw [← hnames]
          exact find?_name_isSome_iff.mp hstep.2
        · rw [StepRel, groupsOf_setGroups_other ha] at hstep
          exact hinv a b hstep
      exact ih (fun g' hg' => hD g' (List.mem_cons_of_mem _ hg')) hnames' hinv' h

theorem hasChildCycle_nil_children {gs : List ServiceGroupConfig} {p : String} :
    hasChildCycle gs (groupCycleFuel gs) p [] = false := by
  rw [groupCycleFuel, hasChildCycle]
  rfl

/-- A completed pass two keeps the assigned graph acyclic. -/
theorem groupsPhase2_ok_acyclic :
    ∀ {D : List GroupDef} {st st' : GroupPhase2},
      groupsPhase2 D st = Except.ok st' →
      (∀ x, ¬ Relation.TransGen (StepRel st.groups) x x) →
      ∀ x, ¬ Relation.TransGen (StepRel st'.groups) x x := by
  intro D
  induction D with
  | nil =>
    intro st st' h hacyc
    cases h
    exact hacyc
  | cons g rest ih =>
    intro st st' h hacyc
    rcases hp : processChildren2 st.groups g.name g.children ([], st.orphanNames)
      with e | ⟨cg, orph⟩
    · rw [groupsPhase2_cons_err hp] at h
      cases h
    · rw [groupsPhase2_cons_ok hp] at h
      rcases processChildren2_ok_char hp with ⟨hcg, _, hor⟩
      rw [List.nil_append] at hcg
      by_cases hmem : g.name ∈ st.groups.map (·.name)
      · have hchk : hasChildCycle st.groups (groupCycleFuel st.groups) g.name cg
            = false := by
          rcases hor with hor | hor
          · rw [hcg]
            simpa using hor
          · rw [hcg, hor]
            simpa using hasChildCycle_nil_children
        exact ih h (acyclic_insert hmem hchk hacyc)
      · rw [show ({ groups := setGroups st.groups g.name cg, orphanNames := orph }
            : GroupPhase2) = { groups := st.groups, orphanNames := orph } by
          rw [setGroups_id_of_not_mem hmem]] at h
        exact ih h hacyc

theorem processGroup1_ok_inv {svcs : List ServiceConfig} {skipped : List String}
    {st : GroupPhase1} {g : GroupDef} {st'' : GroupPhase1}
    (h : processGroup1 svcs skipped st g = Except.ok st'') :
    intersect st.namesInUse g.idents = [] ∧
    st'' = { groups := st.groups ++ [group1Entry svcs g]
             orphanNames := addOrphans svcs skipped st.orphanNames g
             namesInUse := st.namesInUse ++ g.idents } := by
  by_cases hi : intersect st.namesInUse g.idents = []
  · rw [processGroup1_ok hi] at h
    cases h
    exact ⟨hi, rfl⟩
  · rw [processGroup1_err hi] at h
    cases h

theorem groupsPhase1_fresh {svcs : List ServiceConfig} {skipped : List String} :
    ∀ {gs : List GroupDef} {st st' : GroupPhase1},
      groupsPhase1 svcs skipped gs st = Except.ok st' →
      ∀ g ∈ gs, ∀ x ∈ g.idents, x ∉ st.namesInUse := by
  intro gs
  induction gs with
  | nil =>
    intro st st' _ g hg
    cases hg
  | cons g0 rest ih =>
    intro st st' h g hg x hx
    rw [groupsPhase1] at h
    rcases hp : processGroup1 svcs skipped st g0 with e | st2
    · rw [hp] at h
      cases h
    · rw [hp] at h
      rcases processGroup1_ok_inv hp with ⟨hi, rfl⟩
      rcases List.mem_cons.mp hg with rfl | hgrest
      · exact intersect_eq_nil_iff.mp hi x hx
      · intro hxin
        exact ih h g hgrest x hx (List.mem_append_left _ hxin)

theorem name_mem_idents (g : GroupDef) : g.name ∈ g.idents :=
  List.mem_append_right _ (List.mem_singleton_self _)

theorem groupsPhase1_names_nodup {svcs : List ServiceConfig}
    {skipped : List String} :
    ∀ {gs : List GroupDef} {st st' : GroupPhase1},
      groupsPhase1 svcs skipped gs st = Except.ok st' →
      (gs.map (·.name)).Nodup := by
  intro gs
  induction gs with
  | nil =>
    intro st st' _
    exact List.nodup_nil
  | cons g0 rest ih =>
    intro st st' h
    rw [groupsPhase1] at h
    rcases hp : processGroup1 svcs skipped st g0 with e | st2
    · rw [hp] at h
      cases h
    · rw [hp] at h
      rcases processGroup1_ok_inv hp with ⟨_, rfl⟩
      rw [List.map_cons, List.nodup_cons]
      refine ⟨?_, ih h⟩
      intro hmem
      rcases List.mem_map.mp hmem with ⟨g', hg', hname⟩
      exact groupsPhase1_fresh h g' hg' g0.name (hname ▸ name_mem_idents g')
        (List.mem_append_right _ (name_mem_idents g0))

theorem group1Entry_name (svcs : List ServiceConfig) (g : GroupDef) :
    (group1Entry svcs g).name = g.name := rfl

theorem group1Entry_groups (svcs : List ServiceConfig) (g : GroupDef) :
    (group1Entry svcs g).groups = [] := rfl

theorem childRel_elim {c : Config} {a b : String} (h : ChildRel c a b) :
    (∃ g ∈ c.allGroupDefs, g.name = a ∧ b ∈ g.children) ∧ b ∈ groupNames c := by
  rw [ChildRel, childRelB, Bool.and_eq_true, List.any_eq_true] at h
  obtain ⟨⟨g, hg, hand⟩, hmem⟩ := h
  rw [Bool.and_eq_true, beq_iff_eq, List.elem_iff] at hand
  exact ⟨⟨g, hg, hand.1, hand.2⟩, List.elem_iff.mp hmem⟩

theorem not_stepRel_of_all_nil {gs : List ServiceGroupConfig}
    (h : ∀ e ∈ gs, e.groups = ([] : List String)) (a b : String) :
    ¬ StepRel gs a b := by
  intro hstep
  rw [StepRel, groupsOf] at hstep
  rcases hf : gs.find? (fun g => g.name == a) with _ | e
  · rw [hf] at hstep
    cases hstep
  · rw [hf] at hstep
    have hstep' : b ∈ e.groups := hstep
    rw [h e (List.mem_of_find?_eq_some hf)] at hstep'
    cases hstep'

/-- When pass two completes, the declared group-containment relation is
acyclic. -/
theorem groupsPhase2_ok_childRel_acyclic {c : Config} {st0 g2 : GroupPhase2}
    (hnames : st0.groups.map (·.name) = groupNames c)
    (hnil : ∀ e ∈ st0.groups, e.groups = ([] : List String))
    (hnd : (groupNames c).Nodup)
    (h : groupsPhase2 c.allGroupDefs st0 = Except.ok g2) :
    ∀ g, ¬ SelfContaining c g := by
  have hD : ∀ g ∈ c.allGroupDefs, g.name ∈ st0.groups.map (·.name) := by
    intro g hg
    rw [hnames]
    exact List.mem_map.mpr ⟨g, hg, rfl⟩
  have hmemchar := groupsPhase2_groupsOf_mem h (by rw [show c.allGroupDefs.map (·.name) = groupNames c from rfl]; exact hnd) hD
  have hsub : ∀ a b, ChildRel c a b → StepRel g2.groups a b := by
    intro a b hcr
    rcases childRel_elim hcr with ⟨⟨g, hg, rfl, hbch⟩, hbn⟩
    rw [StepRel, hmemchar g hg, List.mem_filter]
    refine ⟨hbch, ?_⟩
    rw [isGroupName]
    apply find?_name_isSome_iff.mpr
    rw [hnames]
    exact hbn
  have hinit : ∀ x, ¬ Relation.TransGen (StepRel st0.groups) x x := by
    intro x htg
    rcases Relation.TransGen.head'_iff.mp htg with ⟨y, hstep, _⟩
    exact not_stepRel_of_all_nil hnil x y hstep
  have hfinal := groupsPhase2_ok_acyclic h hinit
  intro g hself
  exact hfinal g (Relation.TransGen.mono (fun a b hab => hsub a b hab) hself)

/-- Concrete configuration refuting C3 as stated: `g1` and `g2` contain
each other; the raised error names `g2` only. -/
def cfgC3 : Config :=
  { env := []
    groups := [⟨"g1", [], "", ["g2"], []⟩, ⟨"g2", [], "", ["g1"], []⟩]
    services := [], importedGroups := [], importedServices := [] }

/-- Claim C3 (counterexample): in `cfgC3` the group `g1` transitively
contains itself, but resolution fails with `group cycle: g2`, which
does not name `g1`. -/
theorem C3_counterexample :
    initMaps cfgC3 = Except.error "group cycle: g2" ∧
    ChildRel cfgC3 "g1" "g2" ∧ ChildRel cfgC3 "g2" "g1" ∧
    SelfContaining cfgC3 "g1" ∧
    "group cycle: g2" ≠ "group cycle: g1" := by
  have h12 : ChildRel cfgC3 "g1" "g2" := by
    show childRelB cfgC3 "g1" "g2" = true
    rfl
  have h21 : ChildRel cfgC3 "g2" "g1" := by
    show childRelB cfgC3 "g2" "g1" = true
    rfl
  refine ⟨rfl, h12, h21, Relation.TransGen.head h12 (Relation.TransGen.single h21), ?_⟩
  decide

/-- Claim C3 (amended): provided the identifier checks of the earlier
phases pass, a configuration in which some group directly or
transitively contains itself makes resolution fail with a cycle error
naming a group that transitively contains itself (not necessarily the
given one); and when no group contains itself, the cycle check never
fires — pass two completes. -/
theorem C3_cycle_detection :
    (∀ (c : Config) (sp : SvcPhase) (g1 : GroupPhase1),
      servicesPhase c.env c.allServices ⟨[], [], []⟩ = Except.ok sp →
      groupsPhase1 sp.svcs sp.servicesSkipped c.allGroupDefs
        ⟨[], [], sp.namesInUse⟩ = Except.ok g1 →
      (∃ g, SelfContaining c g) →
      ∃ gname, SelfContaining c gname ∧
        initMaps c = Except.error ("group cycle: " ++ gname)) ∧
    (∀ (c : Config) (sp : SvcPhase) (g1 : GroupPhase1),
      servicesPhase c.env c.allServices ⟨[], [], []⟩ = Except.ok sp →
      groupsPhase1 sp.svcs sp.servicesSkipped c.allGroupDefs
        ⟨[], [], sp.namesInUse⟩ = Except.ok g1 →
      (∀ g, ¬ SelfContaining c g) →
      ∃ g2, groupsPhase2 c.allGroupDefs ⟨g1.groups, g1.orphanNames⟩
        = Except.ok g2) := by
  have hfacts : ∀ (c : Config) (sp : SvcPhase) (g1 : GroupPhase1),
      servicesPhase c.env c.allServices ⟨[], [], []⟩ = Except.ok sp →
      groupsPhase1 sp.svcs sp.servicesSkipped c.allGroupDefs
        ⟨[], [], sp.namesInUse⟩ = Except.ok g1 →
      g1.groups.map (·.name) = groupNames c ∧
      (∀ e ∈ g1.groups, e.groups = ([] : List String)) ∧
      (groupNames c).Nodup := by
    intro c sp g1 hsp hg1
    have hchar := (groupsPhase1_ok sp.svcs sp.servicesSkipped c.allGroupDefs _ _ hg1).1
    simp only [List.nil_append] at hchar
    refine ⟨?_, ?_, ?_⟩
    · rw [hchar, List.map_map]
      rfl
    · intro e he
      rw [hchar] at he
      rcases List.mem_map.mp he with ⟨g, _, rfl⟩
      rfl
    · exact groupsPhase1_names_nodup hg1
  constructor
  · intro c sp g1 hsp hg1 hcyc
    rcases hfacts c sp g1 hsp hg1 with ⟨hnames, hnil, hnd⟩
    rcases hp2 : groupsPhase2 c.allGroupDefs ⟨g1.groups, g1.orphanNames⟩
      with e | g2
    · have hsound := groupsPhase2_err_sound (fun g hg => hg)
        (show (⟨g1.groups, g1.orphanNames⟩ : GroupPhase2).groups.map (·.name)
          = groupNames c from hnames)
        (fun a b hstep => absurd hstep (not_stepRel_of_all_nil hnil a b)) hp2
      rcases hsound with ⟨gname, rfl, hself⟩
      exact ⟨gname, hself, initMaps_eq_of_groups2_err hsp hg1 hp2⟩
    · rcases hcyc with ⟨g, hself⟩
      exact absurd hself (groupsPhase2_ok_childRel_acyclic hnames hnil hnd hp2 g)
  · intro c sp g1 hsp hg1 hacyc
    rcases hfacts c sp g1 hsp hg1 with ⟨hnames, hnil, _⟩
    rcases hp2 : groupsPhase2 c.allGroupDefs ⟨g1.groups, g1.orphanNames⟩
      with e | g2
    · have hsound := groupsPhase2_err_sound (fun g hg => hg)
        (show (⟨g1.groups, g1.orphanNames⟩ : GroupPhase2).groups.map (·.name)
          = groupNames c from hnames)
        (fun a b hstep => absurd hstep (not_stepRel_of_all_nil hnil a b)) hp2
      rcases hsound with ⟨gname, _, hself⟩
      exact absurd hself (hacyc gname)
    · exact ⟨g2, rfl⟩

theorem C3_witness :
    ∃ gname, SelfContaining cfgC3 gname ∧
      initMaps cfgC3 = Except.error ("group cycle: " ++ gname) := by
  apply C3_cycle_detection.1 cfgC3 ⟨[], [], []⟩
    ⟨[⟨"g1", [], "", [], [], [], ["g2"]⟩, ⟨"g2", [], "", [], [], [], ["g1"]⟩],
      ["g2", "g1"], ["g1", "g2"]⟩
    rfl rfl
  have h12 : ChildRel cfgC3 "g1" "g2" := by
    show childRelB cfgC3 "g1" "g2" = true
    rfl
  have h21 : ChildRel cfgC3 "g2" "g1" := by
    show childRelB cfgC3 "g2" "g1" = true
    rfl
  exact ⟨"g1", Relation.TransGen.head h12 (Relation.TransGen.single h21)⟩

/-! ## Claims C7 and C8: orphans and platform-skipped services -/

theorem mem_insertName {l : List String} {n x : String} :
    x ∈ insertName l n ↔ x ∈ l ∨ x = n := by
  rw [insertName]
  by_cases h : l.contains n
  · rw [if_pos h]
    constructor
    · exact Or.inl
    · intro hx
      rcases hx with hx | rfl
      · exact hx
      · exact List.elem_iff.mp h
  · rw [if_neg h]
    rw [List.mem_append, List.mem_singleton]

theorem insertName_nodup {l : List String} {n : String} (h : l.Nodup) :
    (insertName l n).Nodup := by
  rw [insertName]
  by_cases hc : l.contains n
  · rw [if_pos hc]
    exact h
  · rw [if_neg hc]
    apply List.Nodup.append h (List.nodup_singleton n)
    intro x hx hx2
    rw [List.mem_singleton.mp hx2] at hx
    exact hc (List.elem_iff.mpr hx)

theorem svcLookup_isSome_iff {svcs : List ServiceConfig} {n : String} :
    (svcLookup svcs n).isSome = true ↔ n ∈ svcs.map (·.name) := by
  rw [svcLookup, List.find?_isSome]
  constructor
  · rintro ⟨s, hs, hname⟩
    rw [beq_iff_eq] at hname
    exact List.mem_map.mpr ⟨s, hs, hname⟩
  · rintro h
    rcases List.mem_map.mp h with ⟨s, hs, hname⟩
    exact ⟨s, hs, beq_iff_eq.mpr hname⟩

theorem mergeSvc_name (cEnv : List String) (s : ServiceConfig) :
    (mergeSvc cEnv s).name = s.name := rfl

theorem mem_addOrphans_aux {svcs : List ServiceConfig} {skipped : List String} :
    ∀ (ch : List String) {o : List String} {x : String},
      x ∈ ch.foldl (fun o n =>
          if (svcLookup svcs n).isSome then o
          else if skipped.contains n then o
          else insertName o n) o ↔
        x ∈ o ∨ (x ∈ ch ∧ ¬ (svcLookup svcs x).isSome = true ∧
          ¬ skipped.contains x = true) := by
  intro ch
  induction ch with
  | nil =>
    intro o x
    simp
  | cons n rest ih =>
    intro o x
    rw [List.foldl_cons]
    by_cases hsv : (svcLookup svcs n).isSome = true
    · rw [if_pos hsv, ih]
      constructor
      · rintro (h | ⟨h1, h2, h3⟩)
        · exact Or.inl h
        · exact Or.inr ⟨List.mem_cons_of_mem _ h1, h2, h3⟩
      · rintro (h | ⟨h1, h2, h3⟩)
        · exact Or.inl h
        · rcases List.mem_cons.mp h1 with rfl | h1
          · exact absurd hsv h2
          · exact Or.inr ⟨h1, h2, h3⟩
    · rw [if_neg hsv]
      by_cases hsk : skipped.contains n = true
      · rw [if_pos hsk, ih]
        constructor
        · rintro (h | ⟨h1, h2, h3⟩)
          · exact Or.inl h
          · exact Or.inr ⟨List.mem_cons_of_mem _ h1, h2, h3⟩
        · rintro (h | ⟨h1, h2, h3⟩)
          · exact Or.inl h
          · rcases List.mem_cons.mp h1 with rfl | h1
            · exact absurd hsk h3
            · exact Or.inr ⟨h1, h2, h3⟩
      · rw [if_neg hsk, ih, mem_insertName]
        constructor
        · rintro ((h | rfl) | ⟨h1, h2, h3⟩)
          · exact Or.inl h
          · exact Or.inr ⟨List.mem_cons_self _ _, hsv, hsk⟩
          · exact Or.inr ⟨List.mem_cons_of_mem _ h1, h2, h3⟩
        · rintro (h | ⟨h1, h2, h3⟩)
          · exact Or.inl (Or.inl h)
          · rcases List.mem_cons.mp h1 with rfl | h1
            · exact Or.inl (Or.inr rfl)
            · exact Or.inr ⟨h1, h2, h3⟩

theorem addOrphans_nodup_aux {svcs : List ServiceConfig} {skipped : List String} :
    ∀ (ch : List String) {o : List String}, o.Nodup →
      (ch.foldl (fun o n =>
          if (svcLookup svcs n).isSome then o
          else if skipped.contains n then o
          else insertName o n) o).Nodup := by
  intro ch
  induction ch with
  | nil =>
    intro o h
    exact h
  | cons n rest ih =>
    intro o h
    rw [List.foldl_cons]
    apply ih
    by_cases hsv : (svcLookup svcs n).isSome = true
    · rw [if_pos hsv]
      exact h
    · rw [if_neg hsv]
      by_cases hsk : skipped.contains n = true
      · rw [if_pos hsk]
        exact h
      · rw [if_neg hsk]
        exact insertName_nodup h

theorem mem_addOrphans {svcs : List ServiceConfig} {skipped : List String}
    {g : GroupDef} {o : List String} {x : String} :
    x ∈ addOrphans svcs skipped o g ↔
      x ∈ o ∨ (x ∈ g.children ∧ ¬ (svcLookup svcs x).isSome = true ∧
        ¬ skipped.contains x = true) :=
  mem_addOrphans_aux g.children

theorem addOrphans_nodup {svcs : List ServiceConfig} {skipped : List String}
    {g : GroupDef} {o : List String} (h : o.Nodup) :
    (addOrphans svcs skipped o g).Nodup :=
  addOrphans_nodup_aux g.children h

theorem mem_foldl_addOrphans {svcs : List ServiceConfig} {skipped : List String} :
    ∀ {defs : List GroupDef} {o : List String} {x : String},
      x ∈ defs.foldl (addOrphans svcs skipped) o ↔
        x ∈ o ∨ (∃ g ∈ defs, x ∈ g.children) ∧
          ¬ (svcLookup svcs x).isSome = true ∧ ¬ skipped.contains x = true := by
  intro defs
  induction defs with
  | nil =>
    intro o x
    simp
  | cons g rest ih =>
    intro o x
    rw [List.foldl_cons, ih, mem_addOrphans]
    constructor
    · rintro ((h | ⟨h1, h2, h3⟩) | ⟨⟨g', hg', h1⟩, h2, h3⟩)
      · exact Or.inl h
      · exact Or.inr ⟨⟨g, List.mem_cons_self _ _, h1⟩, h2, h3⟩
      · exact Or.inr ⟨⟨g', List.mem_cons_of_mem _ hg', h1⟩, h2, h3⟩
    · rintro (h | ⟨⟨g', hg', h1⟩, h2, h3⟩)
      · exact Or.inl (Or.inl h)
      · rcases List.mem_cons.mp hg' with rfl | hg'
        · exact Or.inl (Or.inr ⟨h1, h2, h3⟩)
        · exact Or.inr ⟨⟨g', hg', h1⟩, h2, h3⟩

theorem foldl_addOrphans_nodup {svcs : List ServiceConfig}
    {skipped : List String} :
    ∀ {defs : List GroupDef} {o : List String}, o.Nodup →
      (defs.foldl (addOrphans svcs skipped) o).Nodup := by
  intro defs
  induction defs with
  | nil =>
    intro o h
    exact h
  | cons g rest ih =>
    intro o h
    exact ih (addOrphans_nodup h)

/-- Membership after the erase loop of one pass-two group. -/
theorem mem_eraseFold {gs : List ServiceGroupConfig} :
    ∀ {children o0 : List String}, o0.Nodup →
      (children.foldl
        (fun oo n => if isGroupName gs n then oo.erase n else oo) o0).Nodup ∧
      ∀ x, x ∈ children.foldl
          (fun oo n => if isGroupName gs n then oo.erase n else oo) o0 ↔
        x ∈ o0 ∧ ¬ (x ∈ children ∧ isGroupName gs x = true) := by
  intro children
  induction children with
  | nil =>
    intro o0 h
    refine ⟨h, fun x => ?_⟩
    simp
  | cons n rest ih =>
    intro o0 h
    rw [List.foldl_cons]
    by_cases hg : isGroupName gs n = true
    · rw [if_pos hg]
      rcases ih (List.Nodup.erase n h) with ⟨hnd, hiff⟩
      refine ⟨hnd, fun x => ?_⟩
      rw [hiff x, List.Nodup.mem_erase_iff h]
      constructor
      · rintro ⟨⟨hxn, hxo⟩, hnot⟩
        refine ⟨hxo, ?_⟩
        rintro ⟨hmem, hgx⟩
        rcases List.mem_cons.mp hmem with rfl | hmem
        · exact hxn rfl
        · exact hnot ⟨hmem, hgx⟩
      · rintro ⟨hxo, hnot⟩
        have hxn : x ≠ n := by
          rintro rfl
          exact hnot ⟨List.mem_cons_self _ _, hg⟩
        refine ⟨⟨hxn, hxo⟩, ?_⟩
        rintro ⟨hmem, hgx⟩
        exact hnot ⟨List.mem_cons_of_mem _ hmem, hgx⟩
    · rw [if_neg hg]
      rcases ih h with ⟨hnd, hiff⟩
      refine ⟨hnd, fun x => ?_⟩
      rw [hiff x]
      constructor
      · rintro ⟨hxo, hnot⟩
        refine ⟨hxo, ?_⟩
        rintro ⟨hmem, hgx⟩
        rcases List.mem_cons.mp hmem with rfl | hmem
        · exact hg hgx
        · exact hnot ⟨hmem, hgx⟩
      · rintro ⟨hxo, hnot⟩
        refine ⟨hxo, ?_⟩
        rintro ⟨hmem, hgx⟩
        exact hnot ⟨List.mem_cons_of_mem _ hmem, hgx⟩

/-- Orphan-set evolution across pass two: a name survives iff it is not
a group-name child of any processed definition. -/
theorem groupsPhase2_orphans :
    ∀ {D : List GroupDef} {st st' : GroupPhase2},
      groupsPhase2 D st = Except.ok st' → st.orphanNames.Nodup →
      st'.orphanNames.Nodup ∧
      ∀ x, x ∈ st'.orphanNames ↔ x ∈ st.orphanNames ∧
        ¬ (∃ g ∈ D, x ∈ g.children ∧ x ∈ st.groups.map (·.name)) := by
  intro D
  induction D with
  | nil =>
    intro st st' h hnd
    cases h
    refine ⟨hnd, fun x => ?_⟩
    simp
  | cons g rest ih =>
    intro st st' h hnd
    rcases hp : processChildren2 st.groups g.name g.children ([], st.orphanNames)
      with e | ⟨cg, orph⟩
    · rw [groupsPhase2_cons_err hp] at h
      cases h
    · rw [groupsPhase2_cons_ok hp] at h
      rcases processChildren2_ok_char hp with ⟨_, ho, _⟩
      rcases @mem_eraseFold st.groups g.children st.orphanNames hnd
        with ⟨hnd1, hiff1⟩
      rw [← ho] at hnd1 hiff1
      rcases ih h hnd1 with ⟨hnd2, hiff2⟩
      refine ⟨hnd2, fun x => ?_⟩
      rw [hiff2 x, hiff1 x]
      have hnames := setGroups_names st.groups g.name cg
      constructor
      · rintro ⟨⟨hxo, hnot1⟩, hnot2⟩
        refine ⟨hxo, ?_⟩
        rintro ⟨g', hg', hch, hmem⟩
        rcases List.mem_cons.mp hg' with rfl | hg'
        · exact hnot1 ⟨hch, by
            rw [isGroupName]
            exact find?_name_isSome_iff.mpr hmem⟩
        · exact hnot2 ⟨g', hg', hch, by rw [hnames]; exact hmem⟩
      · rintro ⟨hxo, hnot⟩
        refine ⟨⟨hxo, ?_⟩, ?_⟩
        · rintro ⟨hch, hgx⟩
          exact hnot ⟨g, List.mem_cons_self _ _, hch,
            find?_name_isSome_iff.mp hgx⟩
        · rintro ⟨g', hg', hch, hmem⟩
          rw [hnames] at hmem
          exact hnot ⟨g', List.mem_cons_of_mem _ hg', hch, hmem⟩

/-- Pass two never changes the resolved service children of a group
entry (it assigns only the `Groups` field). -/
theorem groupsPhase2_services_preserved :
    ∀ {D : List GroupDef} {st st' : GroupPhase2},
      groupsPhase2 D st = Except.ok st' →
      ∀ e' ∈ st'.groups, ∃ e ∈ st.groups, e'.services = e.services := by
  intro D
  induction D with
  | nil =>
    intro st st' h e' he'
    cases h
    exact ⟨e', he', rfl⟩
  | cons g rest ih =>
    intro st st' h e' he'
    rcases hp : processChildren2 st.groups g.name g.children ([], st.orphanNames)
      with e | ⟨cg, orph⟩
    · rw [groupsPhase2_cons_err hp] at h
      cases h
    · rw [groupsPhase2_cons_ok hp] at h
      rcases ih h e' he' with ⟨e1, he1, hsv⟩
      rw [setGroups] at he1
      rcases List.mem_map.mp he1 with ⟨e0, he0, heq⟩
      refine ⟨e0, he0, ?_⟩
      rw [hsv, ← heq]
      split
      · rfl
      · rfl

theorem svc_names_after_merge (c : Config) :
    ((c.allServices.filter (·.matchesPlatform)).map (mergeSvc c.env)).map (·.name)
      = (c.allServices.filter (·.matchesPlatform)).map (·.name) := by
  rw [List.map_map]
  apply List.map_congr_left
  intro s _
  rfl

/-- Claim C7: after both group passes, remaining orphan names produce
the fatal "could not be found" error, the maps are not assigned, and
the reported names are exactly the group children that are neither a
platform-matching service, nor a platform-skipped service, nor a
group. -/
theorem C7_orphan_error {c : Config} {sp : SvcPhase} {g1 : GroupPhase1}
    {g2 : GroupPhase2}
    (hsp : servicesPhase c.env c.allServices ⟨[], [], []⟩ = Except.ok sp)
    (hg1 : groupsPhase1 sp.svcs sp.servicesSkipped c.allGroupDefs
      ⟨[], [], sp.namesInUse⟩ = Except.ok g1)
    (hg2 : groupsPhase2 c.allGroupDefs ⟨g1.groups, g1.orphanNames⟩ = Except.ok g2)
    (hne : g2.orphanNames ≠ []) :
    initMaps c = Except.error (orphanMsg g2.orphanNames) ∧
    ∀ x, x ∈ g2.orphanNames ↔
      ((∃ g ∈ c.allGroupDefs, x ∈ g.children) ∧
       x ∉ (c.allServices.filter (·.matchesPlatform)).map (·.name) ∧
       x ∉ (c.allServices.filter (fun s => !s.matchesPlatform)).map (·.name) ∧
       x ∉ groupNames c) := by
  have hspchar := servicesPhase_ok c.env c.allServices _ _ hsp
  have hg1char := groupsPhase1_ok sp.svcs sp.servicesSkipped c.allGroupDefs _ _ hg1
  have horph1 : g1.orphanNames
      = c.allGroupDefs.foldl (addOrphans sp.svcs sp.servicesSkipped) [] := by
    have := hg1char.2.1
    simpa using this
  have hnd1 : g1.orphanNames.Nodup := by
    rw [horph1]
    exact foldl_addOrphans_nodup List.nodup_nil
  have hnames1 : g1.groups.map (·.name) = groupNames c := by
    have := hg1char.1
    simp only [List.nil_append] at this
    rw [this, List.map_map]
    rfl
  have hsvciff : ∀ x, (svcLookup sp.svcs x).isSome = true ↔
      x ∈ (c.allServices.filter (·.matchesPlatform)).map (·.name) := by
    intro x
    rw [svcLookup_isSome_iff, hspchar.1]
    simp only [List.nil_append]
    rw [svc_names_after_merge]
  have hskipiff : ∀ x, sp.servicesSkipped.contains x = true ↔
      x ∈ (c.allServices.filter (fun s => !s.matchesPlatform)).map (·.name) := by
    intro x
    rw [List.elem_iff, hspchar.2.1]
    simp
  rcases groupsPhase2_orphans hg2 hnd1 with ⟨_, hiff2⟩
  refine ⟨?_, ?_⟩
  · rw [initMaps_eq_of_phases_ok hsp hg1 hg2, if_neg hne]
  · intro x
    rw [hiff2 x]
    show x ∈ g1.orphanNames ∧
        ¬ (∃ g ∈ c.allGroupDefs, x ∈ g.children ∧ x ∈ g1.groups.map (·.name)) ↔ _
    rw [horph1, mem_foldl_addOrphans]
    constructor
    · rintro ⟨hmem, hnot⟩
      rcases hmem with hmem | ⟨hex, hsvc, hskip⟩
      · cases hmem
      · refine ⟨hex, ?_, ?_, ?_⟩
        · intro hx
          exact hsvc ((hsvciff x).mpr hx)
        · intro hx
          exact hskip ((hskipiff x).mpr hx)
        · intro hx
          rcases hex with ⟨g, hg, hch⟩
          exact hnot ⟨g, hg, hch, by rw [hnames1]; exact hx⟩
    · rintro ⟨hex, hm, hs, hg⟩
      refine ⟨Or.inr ⟨hex, ?_, ?_⟩, ?_⟩
      · intro hx
        exact hm ((hsvciff x).mp hx)
      · intro hx
        exact hs ((hskipiff x).mp hx)
      · rintro ⟨g', hg', hch, hmem⟩
        rw [hnames1] at hmem
        exact hg hmem

/-- Concrete configuration with a single unresolved child name. -/
def cfgC7 : Config :=
  { env := [], groups := [⟨"g", [], "", ["x"], []⟩]
    services := [], importedGroups := [], importedServices := [] }

theorem C7_witness :
    initMaps cfgC7 = Except.error (orphanMsg ["x"]) ∧
    ∀ x, x ∈ (["x"] : List String) ↔
      ((∃ g ∈ cfgC7.allGroupDefs, x ∈ g.children) ∧
       x ∉ (cfgC7.allServices.filter (·.matchesPlatform)).map (·.name) ∧
       x ∉ (cfgC7.allServices.filter (fun s => !s.matchesPlatform)).map (·.name) ∧
       x ∉ groupNames cfgC7) :=
  @C7_orphan_error cfgC7 ⟨[], [], []⟩
    ⟨[⟨"g", [], "", [], [], [], ["x"]⟩], ["x"], ["g"]⟩
    ⟨[⟨"g", [], "", [], [], [], ["x"]⟩], ["x"]⟩
    rfl rfl rfl (by simp)

/-- Claim C8: a service whose platform predicate fails is recorded as
skipped: it does not enter the service map, referencing groups do not
collect it as an orphan, and resolved group children do not include
it. -/
theorem C8_skipped_services {c : Config} {s : ServiceConfig} {m : ResolvedMaps}
    (hs : s ∈ c.allServices) (hm : s.matchesPlatform = false)
    (hn : s.name ∉ (c.allServices.filter (·.matchesPlatform)).map (·.name))
    (hok : initMaps c = Except.ok m) :
    ∃ sp g1,
      servicesPhase c.env c.allServices ⟨[], [], []⟩ = Except.ok sp ∧
      groupsPhase1 sp.svcs sp.servicesSkipped c.allGroupDefs
        ⟨[], [], sp.namesInUse⟩ = Except.ok g1 ∧
      s.name ∈ sp.servicesSkipped ∧
      s.name ∉ g1.orphanNames ∧
      s.name ∉ m.serviceMap.map (·.name) ∧
      ∀ gm ∈ m.groupMap, s.name ∉ gm.services := by
  rcases initMaps_ok_decomp hok with ⟨sp, g1, g2, hsp, hg1, hg2, _, rfl⟩
  have hspchar := servicesPhase_ok c.env c.allServices _ _ hsp
  have hg1char := groupsPhase1_ok sp.svcs sp.servicesSkipped c.allGroupDefs _ _ hg1
  have hskipmem : s.name ∈ sp.servicesSkipped := by
    rw [hspchar.2.1]
    simp only [List.nil_append]
    exact List.mem_map.mpr ⟨s, List.mem_filter.mpr ⟨hs, by simp [hm]⟩, rfl⟩
  have hsvcnames : sp.svcs.map (·.name)
      = (c.allServices.filter (·.matchesPlatform)).map (·.name) := by
    rw [hspchar.1]
    simp only [List.nil_append]
    exact svc_names_after_merge c
  refine ⟨sp, g1, hsp, hg1, hskipmem, ?_, ?_, ?_⟩
  · intro hmem
    have horph1 : g1.orphanNames
        = c.allGroupDefs.foldl (addOrphans sp.svcs sp.servicesSkipped) [] := by
      have := hg1char.2.1
      simpa using this
    rw [horph1, mem_foldl_addOrphans] at hmem
    rcases hmem with hmem | ⟨_, _, hskip⟩
    · cases hmem
    · exact hskip (List.elem_iff.mpr hskipmem)
  · show s.name ∉ sp.svcs.map (·.name)
    rw [hsvcnames]
    exact hn
  · intro gm hgm hmem
    rcases groupsPhase2_services_preserved hg2 gm hgm with ⟨e, he, hsv⟩
    have hg1groups := hg1char.1
    simp only [List.nil_append] at hg1groups
    rw [hg1groups] at he
    rcases List.mem_map.mp he with ⟨g, _, rfl⟩
    rw [hsv] at hmem
    have : (svcLookup sp.svcs s.name).isSome = true :=
      (List.mem_filter.mp hmem).2
    rw [svcLookup_isSome_iff, hsvcnames] at this
    exact hn this

/-- Concrete configuration exercising C8: a platform-skipped service
referenced by a group. -/
def cfgC8 : Config :=
  { env := [], groups := [⟨"g", [], "", ["s"], []⟩]
    services := [⟨"s", [], [], false⟩], importedGroups := []
    importedServices := [] }

theorem C8_witness :
    ∃ sp g1,
      servicesPhase cfgC8.env cfgC8.allServices ⟨[], [], []⟩ = Except.ok sp ∧
      groupsPhase1 sp.svcs sp.servicesSkipped cfgC8.allGroupDefs
        ⟨[], [], sp.namesInUse⟩ = Except.ok g1 ∧
      "s" ∈ sp.servicesSkipped ∧
      "s" ∉ g1.orphanNames ∧
      "s" ∉ (ResolvedMaps.mk [] [⟨"g", [], "", [], [], [], ["s"]⟩]).serviceMap.map (·.name) ∧
      ∀ gm ∈ (ResolvedMaps.mk [] [⟨"g", [], "", [], [], [], ["s"]⟩]).groupMap,
        "s" ∉ gm.services :=
  C8_skipped_services (s := ⟨"s", [], [], false⟩)
    (by simp [Config.allServices, cfgC8]) rfl (by simp [Config.allServices, cfgC8]) rfl

/-! ## Instance lifecycle (src/unnamed/part_001 `StartAsync`,
src/instance/stop.go `Stop`)

The tracker states of package `tracker` and the externally observable
effects of `StartAsync` are embedded as explicit data.  External steps
(status deletion, command construction, process start, persistence,
readiness waiting, log read-back, the stop action) are oracles: a
`StartEnv` record fixes the outcome of each, and `startAsync` mirrors
the Go control flow over those outcomes.  The concurrent log-follower
goroutine only appends `AddOutput` lines to the task and affects no
branch of `StartAsync`; it is not modeled. -/

inductive TaskState where
  | pending
  | inProgress
  | success
  | failed
  | warning
deriving Repr, DecidableEq

/-- One `SetState` call on a task, identified by its child path below
the task passed into `StartAsync`. -/
structure TaskEvent where
  path : List String
  state : TaskState
  output : List String
deriving Repr, DecidableEq

/-- The service fields `StartAsync` reads. -/
structure InstanceService where
  name : String
  env : List String
  hasLaunchStep : Bool
deriving Repr, DecidableEq

/-- Embedding of `instance.Instance` restricted to the fields the
verified operations read: the owning service and the pid (0 = not
running). -/
structure Instance where
  service : InstanceService
  pid : Nat
deriving Repr, DecidableEq

/-- Oracle outcomes for the external steps of one `StartAsync` run.
`Option String` fields are `none` on success; `cmdStart` returns the
started process's pid. -/
structure StartEnv where
  isExcluded : Bool
  deleteStatuses : Option String
  launchCommand : Option String
  cmdStart : Except String Nat
  save : Option String
  waitUntilRunning : Option String
  runLogContents : Except String (List String)
  stopSync : Option String
  osEnviron : List String
  overridesEnv : List String
deriving Repr

/-- Observable outcome of a `StartAsync` run. -/
structure StartResult where
  ret : Option String
  events : List TaskEvent
  inst : Instance
  persistedPid : Option Nat
  statusesDeleted : Bool
  runLogRemoved : Bool
  launched : Bool
  saved : Bool
  stopInvoked : Bool
  warmupRun : Bool
  cmdEnv : List String
deriving Repr, DecidableEq

deriving instance DecidableEq for Except

/-- Modelled from the spec: `StopSync` is not among the provided
sources (only its callers `StartAsync` and `restartOneOrMoreServices`
are).  Per spec section 4.2 it is a no-op beyond clearing stale
persisted state when the instance is not running, and otherwise invokes
the backend stop action, waits for exit, clears the persisted pid
record and reports the outcome; on success the instance no longer has a
pid. -/
def stopSyncModel (stopResult : Option String) (persisted : Option Nat)
    (c : Instance) : Option String × Instance × Option Nat :=
  if c.pid = 0 then
    (none, c, none)
  else
    match stopResult with
    | none => (none, { c with pid := 0 }, none)
    | some e => (some e, c, persisted)

/-- Embedding of `Instance.StartAsync` (src/unnamed/part_001): the
sequence of guards, task-state transitions, persistence effects and the
failure-cleanup path, driven by the oracle outcomes in `env`. -/
def startAsync (env : StartEnv) (persisted0 : Option Nat) (c : Instance) :
    StartResult :=
  if env.isExcluded then
    ⟨none, [], c, persisted0, false, false, false, false, false, false, []⟩
  else if !c.service.hasLaunchStep then
    ⟨none, [], c, persisted0, false, false, false, false, false, false, []⟩
  else
    let p : List String := [c.service.name, "Start"]
    let ev0 : List TaskEvent := [⟨p, TaskState.inProgress, []⟩]
    if c.pid ≠ 0 then
      ⟨none, ev0 ++ [⟨p, TaskState.warning, ["Already running"]⟩], c,
        persisted0, false, false, false, false, false, false, []⟩
    else
      match env.deleteStatuses with
      | some e =>
        ⟨some e, ev0, c, persisted0, false, false, false, false, false, false, []⟩
      | none =>
        match env.launchCommand with
        | some e =>
          ⟨some e, ev0 ++ [⟨p, TaskState.failed, [e]⟩], c, persisted0,
            true, true, false, false, false, false, []⟩
        | none =>
          let cmdEnv := env.osEnviron ++ env.overridesEnv ++ c.service.env
          match env.cmdStart with
          | Except.error e =>
            ⟨some e, ev0 ++ [⟨p, TaskState.failed, []⟩], c, persisted0,
              true, true, true, false, false, false, cmdEnv⟩
          | Except.ok newPid =>
            let c1 : Instance := { c with pid := newPid }
            match env.save with
            | some e =>
              ⟨some e, ev0 ++ [⟨p, TaskState.failed, []⟩], c1, persisted0,
                true, true, true, false, false, false, cmdEnv⟩
            | none =>
              match env.waitUntilRunning with
              | none =>
                ⟨none, ev0 ++ [⟨p, TaskState.success, []⟩], c1, some newPid,
                  true, true, true, true, false, true, cmdEnv⟩
              | some werr =>
                let evFail : TaskEvent :=
                  match env.runLogContents with
                  | Except.error rerr =>
                    ⟨p, TaskState.failed,
                      ["Could not read log", rerr, "Original error: " ++ werr]⟩
                  | Except.ok lines =>
                    ⟨p, TaskState.failed, lines ++ [werr]⟩
                let stopOut := stopSyncModel env.stopSync (some newPid) c1
                match stopOut.1 with
                | some serr =>
                  ⟨some serr, ev0 ++ [evFail], stopOut.2.1, stopOut.2.2,
                    true, true, true, true, true, false, cmdEnv⟩
                | none =>
                  ⟨some werr, ev0 ++ [evFail], stopOut.2.1, stopOut.2.2,
                    true, true, true, true, true, false, cmdEnv⟩

/-- Claim C4: when the readiness probe never matches before the launch
timeout (all earlier steps succeeding), the Start task ends `Failed`
with the read-back log output followed by the error, the cleanup stop
runs, the original error is returned (the cleanup having succeeded),
and the instance reports pid 0 afterwards. -/
theorem C4_start_timeout_cleanup {env : StartEnv} {persisted0 : Option Nat}
    {c : Instance} {p : Nat} {werr : String} {lines : List String}
    (hexc : env.isExcluded = false)
    (hlaunch : c.service.hasLaunchStep = true)
    (hpid : c.pid = 0)
    (hdel : env.deleteStatuses = none)
    (hcmd : env.launchCommand = none)
    (hstart : env.cmdStart = Except.ok p)
    (hsave : env.save = none)
    (hwait : env.waitUntilRunning = some werr)
    (hlog : env.runLogContents = Except.ok lines)
    (hstop : env.stopSync = none) :
    (startAsync env persisted0 c).ret = some werr ∧
    (startAsync env persisted0 c).events =
      [⟨[c.service.name, "Start"], TaskState.inProgress, []⟩,
       ⟨[c.service.name, "Start"], TaskState.failed, lines ++ [werr]⟩] ∧
    (startAsync env persisted0 c).stopInvoked = true ∧
    (startAsync env persisted0 c).inst.pid = 0 ∧
    (startAsync env persisted0 c).persistedPid = none := by
  rw [startAsync]
  rw [hexc, hlaunch, hpid, hdel, hcmd, hstart, hsave, hwait, hlog, hstop]
  simp only [Bool.false_eq_true, if_false, Bool.not_true, ne_eq,
    not_true_eq_false, if_neg, stopSyncModel]
  by_cases hp : p = 0
  · subst hp
    simp
  · simp [hp]

theorem C4_witness :
    ((startAsync ⟨false, none, none, Except.ok 42, none, some "timeout",
        Except.ok ["line1"], none, [], []⟩ none ⟨⟨"svc", [], true⟩, 0⟩).ret
      = some "timeout") ∧
    ((startAsync ⟨false, none, none, Except.ok 42, none, some "timeout",
        Except.ok ["line1"], none, [], []⟩ none ⟨⟨"svc", [], true⟩, 0⟩).events
      = [⟨["svc", "Start"], TaskState.inProgress, []⟩,
         ⟨["svc", "Start"], TaskState.failed, ["line1", "timeout"]⟩]) ∧
    ((startAsync ⟨false, none, none, Except.ok 42, none, some "timeout",
        Except.ok ["line1"], none, [], []⟩ none ⟨⟨"svc", [], true⟩, 0⟩).stopInvoked
      = true) ∧
    ((startAsync ⟨false, none, none, Except.ok 42, none, some "timeout",
        Except.ok ["line1"], none, [], []⟩ none ⟨⟨"svc", [], true⟩, 0⟩).inst.pid
      = 0) ∧
    ((startAsync ⟨false, none, none, Except.ok 42, none, some "timeout",
        Except.ok ["line1"], none, [], []⟩ none ⟨⟨"svc", [], true⟩, 0⟩).persistedPid
      = none) :=
  C4_start_timeout_cleanup rfl rfl rfl rfl rfl rfl rfl rfl rfl rfl

/-- Claim C5 (amended): starting an instance never alters the persisted
pid, performs no status deletion and no backend launch, and returns nil
when the instance is already running; the Warning state with message
"Already running" is additionally set only when the service is neither
excluded by the operation config nor without a launch step (in those
two cases `StartAsync` returns nil without touching the task at
all). -/
theorem C5_start_already_running :
    (∀ (env : StartEnv) (persisted0 : Option Nat) (c : Instance),
      env.isExcluded = false → c.service.hasLaunchStep = true → c.pid ≠ 0 →
      startAsync env persisted0 c =
        ⟨none,
         [⟨[c.service.name, "Start"], TaskState.inProgress, []⟩,
          ⟨[c.service.name, "Start"], TaskState.warning, ["Already running"]⟩],
         c, persisted0, false, false, false, false, false, false, []⟩) ∧
    (∀ (env : StartEnv) (persisted0 : Option Nat) (c : Instance),
      env.isExcluded = true ∨ c.service.hasLaunchStep = false →
      startAsync env persisted0 c =
        ⟨none, [], c, persisted0, false, false, false, false, false, false, []⟩) := by
  constructor
  · intro env persisted0 c hexc hlaunch hpid
    rw [startAsync, hexc, hlaunch]
    simp [hpid]
  · intro env persisted0 c h
    rcases h with h | h
    · rw [startAsync, h]
      simp
    · rw [startAsync, h]
      by_cases hexc : env.isExcluded
      · simp [hexc]
      · simp [hexc]

/-- A start environment that excludes the service. -/
def envC5 : StartEnv :=
  ⟨true, none, none, Except.ok 1, none, none, Except.ok [], none, [], []⟩

/-- A running instance (pid 5). -/
def instC5 : Instance := ⟨⟨"svc", [], true⟩, 5⟩

/-- Claim C5 (counterexample): for a running instance whose service is
excluded by the operation config, `StartAsync` returns nil but never
sets the Start task to Warning (no task event is emitted at all), so
the claim as stated — for every instance with nonzero pid — fails. -/
theorem C5_counterexample :
    instC5.pid ≠ 0 ∧
    (startAsync envC5 (some 5) instC5).ret = none ∧
    (startAsync envC5 (some 5) instC5).events = [] ∧
    ([] : List TaskEvent) ≠
      [⟨["svc", "Start"], TaskState.inProgress, []⟩,
       ⟨["svc", "Start"], TaskState.warning, ["Already running"]⟩] := by
  refine ⟨by decide, rfl, rfl, ?_⟩
  intro h
  cases h

theorem C5_witness :
    startAsync ⟨false, none, none, Except.ok 1, none, none, Except.ok [], none, [], []⟩
        (some 7) ⟨⟨"svc", [], true⟩, 7⟩ =
      ⟨none,
       [⟨["svc", "Start"], TaskState.inProgress, []⟩,
        ⟨["svc", "Start"], TaskState.warning, ["Already running"]⟩],
       ⟨⟨"svc", [], true⟩, 7⟩, some 7, false, false, false, false, false, false, []⟩ :=
  C5_start_already_running.1 _ (some 7) ⟨⟨"svc", [], true⟩, 7⟩ rfl rfl (by decide)

/-! ## Claim C6: stopping a non-running instance (src/instance/stop.go) -/

/-- Modelled from the spec: `clearState` is not among the provided
sources (stop.go calls it on the not-running path).  Per spec section
4.2 / design note, it clears any stale persisted state for the
service. -/
def clearStateModel (persisted : Option Nat) : Option Nat := none

/-- Observable outcome of `instance.Stop`. -/
structure StopOutcome where
  ret : Option String
  enqueued : Bool
  backendStopInvoked : Bool
  persisted : Option Nat
deriving Repr, DecidableEq

/-- Embedding of `instance.Stop` (src/instance/stop.go): load the
instance; when it is not running (pid 0), clear stale state and return
nil without enqueueing anything; otherwise enqueue the `StopSync` work
item on the pool (the backend stop action itself then runs inside the
pool, not in `Stop`). -/
def stop (load : Except String Instance) (enqueue : Option String)
    (persisted : Option Nat) : StopOutcome :=
  match load with
  | Except.error e => ⟨some e, false, false, persisted⟩
  | Except.ok inst =>
    if inst.pid = 0 then
      ⟨none, false, false, clearStateModel persisted⟩
    else
      ⟨enqueue, true, false, persisted⟩

/-- Claim C6: for an instance with pid 0, `Stop` returns success
without enqueueing or invoking the backend stop action; its only effect
is clearing the stale persisted state. -/
theorem C6_stop_not_running {load : Except String Instance}
    {enqueue : Option String} {persisted : Option Nat} {inst : Instance}
    (hload : load = Except.ok inst) (hpid : inst.pid = 0) :
    stop load enqueue persisted = ⟨none, false, false, none⟩ := by
  rw [hload, stop]
  simp [hpid, clearStateModel]

theorem C6_witness :
    stop (Except.ok ⟨⟨"svc", [], true⟩, 0⟩) (some "pool stopped") (some 9)
      = ⟨none, false, false, none⟩ :=
  C6_stop_not_running rfl rfl

/-! ## Claim C9: restartAll order (src/edward/restart.go)

`restartAll` iterates `c.serviceMap` (a Go map, unspecified iteration
order — the input list order stands for one iteration order), keeps the
services with a running instance, sorts the loaded instances by pid
ascending (`sort.Slice` with `less = pid <`; for distinct pids the
sorted permutation is unique, so insertion sort is an observationally
exact model), and passes the resulting service-name sequence to
`restartOneOrMoreServices`. -/

structure RunningService where
  name : String
  pid : Nat
  running : Bool
deriving Repr, DecidableEq

/-- Comparison used by the `sort.Slice` call: ascending pid. -/
def pidLE (a b : RunningService) : Prop := a.pid ≤ b.pid

instance : DecidableRel pidLE := fun a b => Nat.decLe a.pid b.pid

instance : IsTotal RunningService pidLE := ⟨fun a b => Nat.le_total a.pid b.pid⟩

instance : IsTrans RunningService pidLE :=
  ⟨fun _ _ _ hab hbc => Nat.le_trans hab hbc⟩

/-- The discovered running instances in the order `restartAll` restarts
them. -/
def restartAllOrder (l : List RunningService) : List RunningService :=
  List.insertionSort pidLE (l.filter (·.running))

/-- The service-name sequence handed to `restartOneOrMoreServices`. -/
def restartAllNames (l : List RunningService) : List String :=
  (restartAllOrder l).map (·.name)

/-- Modelled from the spec: `services.DoForServices` is not among the
provided sources; per the spec's ordering guarantee it applies the
given operation to each service sequentially in the order of the list
it is handed.  The restart closure stops the instance, builds unless
`skipBuild`, and starts it. -/
def restartSteps (skipBuild : Bool) (n : String) : List (String × String) :=
  [("stop", n)] ++ (if skipBuild then [] else [("build", n)]) ++ [("start", n)]

/-- The full action sequence of one `restartAll` invocation. -/
def restartAllActions (skipBuild : Bool) (l : List RunningService) :
    List (String × String) :=
  (restartAllNames l).bind (restartSteps skipBuild)

theorem sorted_perm_nodup_pids_eq :
    ∀ {u v : List RunningService}, List.Perm u v →
      List.Sorted pidLE u → List.Sorted pidLE v →
      (u.map (·.pid)).Nodup → u = v := by
  intro u
  induction u with
  | nil =>
    intro v hperm _ _ _
    exact hperm.nil_eq
  | cons a u' ih =>
    intro v hperm hsu hsv hnd
    rcases v with _ | ⟨b, v'⟩
    · exact absurd hperm.symm.nil_eq (by simp)
    · have hab : a = b := by
        have hbmem : b ∈ a :: u' := hperm.mem_iff.mpr (List.mem_cons_self _ _)
        rcases List.mem_cons.mp hbmem with rfl | hbmem
        · rfl
        · have hamem : a ∈ b :: v' := hperm.subset (List.mem_cons_self _ _)
          have h1 : pidLE a b := List.rel_of_sorted_cons hsu b hbmem
          have h2 : pidLE b a := by
            rcases List.mem_cons.mp hamem with rfl | hamem
            · exact Nat.le_refl _
            · exact List.rel_of_sorted_cons hsv a hamem
          have hpid : a.pid = b.pid := Nat.le_antisymm h1 h2
          rw [List.map_cons, List.nodup_cons] at hnd
          exact absurd (List.mem_map.mpr ⟨b, hbmem, hpid.symm⟩) hnd.1
      subst hab
      have hperm' := hperm.cons_inv
      rw [List.map_cons, List.nodup_cons] at hnd
      rw [ih hperm' hsu.of_cons hsv.of_cons hnd.2]

/-- Claim C9: the restart sequence is the running services sorted by
ascending pid; for a fixed set of distinct pids the sequence does not
depend on the map iteration order; and the per-service actions are
stop, then (unless skipped) build, then start, in that sequence. -/
theorem C9_restartAll_ascending_pids :
    (∀ l : List RunningService,
      List.Sorted (fun x y : Nat => x ≤ y) ((restartAllOrder l).map (·.pid)) ∧
      List.Perm (restartAllOrder l) (l.filter (·.running))) ∧
    (∀ l₁ l₂ : List RunningService, List.Perm l₁ l₂ →
      ((l₁.filter (·.running)).map (·.pid)).Nodup →
      restartAllOrder l₁ = restartAllOrder l₂) ∧
    (∀ (skipBuild : Bool) (l : List RunningService),
      restartAllActions skipBuild l
        = (restartAllOrder l).bind (fun s => restartSteps skipBuild s.name)) := by
  refine ⟨?_, ?_, ?_⟩
  · intro l
    constructor
    · exact List.Pairwise.map _ (fun a b h => h)
        (List.sorted_insertionSort pidLE (l.filter (·.running)))
    · exact List.perm_insertionSort pidLE _
  · intro l₁ l₂ hperm hnd
    apply sorted_perm_nodup_pids_eq
    · exact (List.perm_insertionSort pidLE _).trans
        ((hperm.filter _).trans (List.perm_insertionSort pidLE _).symm)
    · exact List.sorted_insertionSort pidLE _
    · exact List.sorted_insertionSort pidLE _
    · exact ((List.perm_insertionSort pidLE _).map (·.pid)).nodup_iff.mpr hnd
  · intro skipBuild l
    rw [restartAllActions, restartAllNames]
    generalize restartAllOrder l = u
    induction u with
    | nil => rfl
    | cons s u ih =>
      show restartSteps skipBuild s.name ++ _ = restartSteps skipBuild s.name ++ _
      exact congrArg _ (congrArg List.flatten
        (List.map_map (restartSteps skipBuild) (fun x => x.name) u))

theorem C9_witness :
    (List.Sorted (fun x y : Nat => x ≤ y)
      ((restartAllOrder [⟨"b", 30, true⟩, ⟨"c", 10, false⟩, ⟨"a", 20, true⟩]).map (·.pid)) ∧
     List.Perm (restartAllOrder [⟨"b", 30, true⟩, ⟨"c", 10, false⟩, ⟨"a", 20, true⟩])
      ([⟨"b", 30, true⟩, ⟨"c", 10, false⟩, ⟨"a", 20, true⟩].filter (·.running))) ∧
    restartAllOrder [⟨"b", 30, true⟩, ⟨"c", 10, false⟩, ⟨"a", 20, true⟩]
      = restartAllOrder [⟨"a", 20, true⟩, ⟨"b", 30, true⟩, ⟨"c", 10, false⟩] :=
  ⟨C9_restartAll_ascending_pids.1 _,
   C9_restartAll_ascending_pids.2.1 _ _
     (by decide) (by decide)⟩

/-! ## Claim C10: LoadRunningServices (src/unnamed/part_002)

The directory listing and each file read are oracles.  `parse`
abstracts `json.Unmarshal` into `command := &Instance{}`: its result
gives the state of the target record after the call (`target`) and
whether an error was returned (`failed`; the Go code discards it).  The
`Instance` record is not among the provided sources; per spec section 3
and every consumer in the sources, its `Service` field is a reference
(`*services.ServiceConfig`), so it is modelled as an `Option` that is
`none` in the zero value `&Instance{}` and stays `none` when the
unmarshal leaves the record untouched (e.g. the validity pre-pass
rejects invalid JSON).  After the unmarshal the code executes
`command.Service.ConfigFile = command.ConfigFile`: when the reference
is still nil this dereferences a nil pointer and the program panics —
an outcome distinct from returning an error or a list. -/

structure StoredService where
  name : String
  configFile : String
deriving Repr, DecidableEq

/-- State of the `Instance` record after `json.Unmarshal`; `service`
is a nil-able reference. -/
structure StoredInstance where
  service : Option StoredService
  configFile : String
deriving Repr, DecidableEq

/-- The zero value `&Instance{}`: nil service reference. -/
def zeroInstance : StoredInstance := ⟨none, ""⟩

/-- Outcome of one `json.Unmarshal` call: the resulting target record
(`zeroInstance` when left untouched, possibly partially populated on a
mid-decode failure) and whether an error was returned. -/
structure ParseOutcome where
  target : StoredInstance
  failed : Bool
deriving Repr, DecidableEq

structure DirEntry where
  name : String
  isDir : Bool
  readResult : Except String String
deriving Repr, DecidableEq

/-- Content of a successfully read entry (placeholder for unread). -/
def contentOf (f : DirEntry) : String :=
  match f.readResult with
  | Except.ok raw => raw
  | Except.error _ => ""

/-- Possible outcomes of `LoadRunningServices`: a service list, a
returned error, or a runtime panic (nil service reference dereferenced
at `command.Service.ConfigFile = command.ConfigFile`). -/
inductive LoadOutcome where
  | ok (services : List StoredService)
  | err (e : String)
  | panic
deriving Repr, DecidableEq

/-- Embedding of the file loop of `LoadRunningServices`: directories
are skipped; a read failure returns its error; the unmarshal error is
ignored; then the service reference is dereferenced to stamp the
config-file path — panicking when it is nil — and the referenced
service is appended. -/
def loadRunningServicesFiles (parse : String → ParseOutcome) :
    List DirEntry → LoadOutcome
  | [] => LoadOutcome.ok []
  | f :: rest =>
    if f.isDir then loadRunningServicesFiles parse rest
    else
      match f.readResult with
      | Except.error e => LoadOutcome.err e
      | Except.ok raw =>
        match ((parse raw).target).service with
        | none => LoadOutcome.panic
        | some svc =>
          match loadRunningServicesFiles parse rest with
          | LoadOutcome.ok out =>
            LoadOutcome.ok
              ({ svc with configFile := ((parse raw).target).configFile } :: out)
          | LoadOutcome.err e => LoadOutcome.err e
          | LoadOutcome.panic => LoadOutcome.panic

/-- Embedding of `instance.LoadRunningServices`. -/
def loadRunningServices (parse : String → ParseOutcome)
    (listing : Except String (List DirEntry)) : LoadOutcome :=
  match listing with
  | Except.error e => LoadOutcome.err e
  | Except.ok files => loadRunningServicesFiles parse files

/-- A state file whose contents do not unmarshal: the validity pre-pass
fails, the error is discarded, and the target record stays zero. -/
def badEntryC10 : DirEntry := ⟨"svc.json", false, Except.ok "not json"⟩

/-- Parse oracle for `badEntryC10`: the unmarshal errors and leaves the
record untouched, so the service reference is still nil. -/
def parseC10 : String → ParseOutcome := fun _ => ⟨zeroInstance, true⟩

/-- Claim C10 (counterexample): for a single state file of invalid
JSON, the unmarshal error leaves the zero record's nil service
reference in place and `LoadRunningServices` panics at the
`ConfigFile` assignment; no zero-valued entry is appended. -/
theorem C10_counterexample :
    loadRunningServices parseC10 (Except.ok [badEntryC10]) = LoadOutcome.panic ∧
    LoadOutcome.panic ≠ LoadOutcome.ok [⟨"", ""⟩] := by
  refine ⟨rfl, ?_⟩
  intro h
  cases h

/-- Claim C10 (amended): `LoadRunningServices` never returns an error
because of an unmarshal failure — the unmarshal error is discarded, and
the result is unchanged under arbitrary changes of the error flags.
When every non-directory file reads successfully and every decoded
record has a populated service reference, each such file contributes
one entry in order (directories skipped) even if its unmarshal
reported an error; a returned error always comes from the directory
listing or a file read; but when a decoded record's service reference
is left nil (as for invalid JSON, whose failed unmarshal leaves the
zero-valued record), the code panics on a nil dereference instead of
appending a zero-valued entry. -/
theorem C10_load_running_services (parse : String → ParseOutcome) :
    (∀ e, loadRunningServices parse (Except.error e) = LoadOutcome.err e) ∧
    (∀ (q : String → ParseOutcome) (listing : Except String (List DirEntry)),
      (∀ raw, (parse raw).target = (q raw).target) →
      loadRunningServices parse listing = loadRunningServices q listing) ∧
    (∀ files : List DirEntry,
      (∀ f ∈ files, f.isDir = false → f.readResult = Except.ok (contentOf f)) →
      (∀ f ∈ files, f.isDir = false →
        ((parse (contentOf f)).target).service.isSome = true) →
      loadRunningServices parse (Except.ok files)
        = LoadOutcome.ok ((files.filter (fun g => !g.isDir)).filterMap
            (fun g => ((parse (contentOf g)).target).service.map
              (fun svc =>
                { svc with configFile := ((parse (contentOf g)).target).configFile })))) ∧
    (∀ (files : List DirEntry) (e : String),
      loadRunningServicesFiles parse files = LoadOutcome.err e →
      ∃ f ∈ files, f.isDir = false ∧ f.readResult = Except.error e) ∧
    (∀ files : List DirEntry,
      loadRunningServicesFiles parse files = LoadOutcome.panic →
      ∃ f ∈ files, f.isDir = false ∧ ∃ raw, f.readResult = Except.ok raw ∧
        ((parse raw).target).service = none) := by
  refine ⟨fun e => rfl, ?_, ?_, ?_, ?_⟩
  · intro q listing htgt
    rcases listing with e | files
    · rfl
    · show loadRunningServicesFiles parse files = loadRunningServicesFiles q files
      induction files with
      | nil => rfl
      | cons f rest ih =>
        rw [loadRunningServicesFiles, loadRunningServicesFiles]
        by_cases hd : f.isDir
        · rw [if_pos hd, if_pos hd]
          exact ih
        · rw [if_neg hd, if_neg hd]
          rcases hr : f.readResult with e | raw
          · rfl
          · dsimp only
            rw [htgt raw, ih]
  · intro files
    show ∀ _ _, loadRunningServicesFiles parse files = _
    induction files with
    | nil =>
      intro _ _
      rfl
    | cons f rest ih =>
      intro hreads hsome
      have hreads' : ∀ f' ∈ rest, f'.isDir = false →
          f'.readResult = Except.ok (contentOf f') :=
        fun f' hf' => hreads f' (List.mem_cons_of_mem _ hf')
      have hsome' : ∀ f' ∈ rest, f'.isDir = false →
          ((parse (contentOf f')).target).service.isSome = true :=
        fun f' hf' => hsome f' (List.mem_cons_of_mem _ hf')
      rw [loadRunningServicesFiles]
      by_cases hd : f.isDir
      · rw [if_pos hd]
        have hfil : List.filter (fun g => !g.isDir) (f :: rest)
            = List.filter (fun g => !g.isDir) rest := by
          simp [List.filter_cons, hd]
        rw [hfil]
        exact ih hreads' hsome'
      · have hd' : f.isDir = false := by
          simpa using hd
        rw [if_neg hd, hreads f (List.mem_cons_self _ _) hd']
        dsimp only
        rcases hsvc : ((parse (contentOf f)).target).service with _ | svc
        · exfalso
          have hs := hsome f (List.mem_cons_self _ _) hd'
          rw [hsvc] at hs
          cases hs
        · rw [ih hreads' hsome']
          have hfil : List.filter (fun g => !g.isDir) (f :: rest)
              = f :: List.filter (fun g => !g.isDir) rest := by
            simp [List.filter_cons, hd']
        -- the head entry of the filterMap is determined by `hsvc`
          rw [hfil]
          simp only [List.filterMap_cons, hsvc, Option.map_some']
  · intro files
    induction files with
    | nil =>
      intro e h
      cases h
    | cons f rest ih =>
      intro e h
      rw [loadRunningServicesFiles] at h
      by_cases hd : f.isDir
      · rw [if_pos hd] at h
        rcases ih e h with ⟨f', hf', hprop⟩
        exact ⟨f', List.mem_cons_of_mem _ hf', hprop⟩
      · rw [if_neg hd] at h
        rcases hr : f.readResult with er | raw
        · rw [hr] at h
          cases h
          exact ⟨f, List.mem_cons_self _ _, by simpa using hd, hr⟩
        · rw [hr] at h
          dsimp only at h
          rcases hsvc : ((parse raw).target).service with _ | svc
          · rw [hsvc] at h
            cases h
          · rw [hsvc] at h
            dsimp only at h
            rcases hrest : loadRunningServicesFiles parse rest with out | er | _
            · rw [hrest] at h
              cases h
            · rw [hrest] at h
              cases h
              rcases ih _ hrest with ⟨f', hf', hprop⟩
              exact ⟨f', List.mem_cons_of_mem _ hf', hprop⟩
            · rw [hrest] at h
              cases h
  · intro files
    induction files with
    | nil =>
      intro h
      cases h
    | cons f rest ih =>
      intro h
      rw [loadRunningServicesFiles] at h
      by_cases hd : f.isDir
      · rw [if_pos hd] at h
        rcases ih h with ⟨f', hf', hprop⟩
        exact ⟨f', List.mem_cons_of_mem _ hf', hprop⟩
      · rw [if_neg hd] at h
        rcases hr : f.readResult with er | raw
        · rw [hr] at h
          cases h
        · rw [hr] at h
          dsimp only at h
          rcases hsvc : ((parse raw).target).service with _ | svc
          · exact ⟨f, List.mem_cons_self _ _, by simpa using hd, raw, hr, hsvc⟩
          · rw [hsvc] at h
            dsimp only at h
            rcases hrest : loadRunningServicesFiles parse rest with out | er | _
            · rw [hrest] at h
              cases h
            · rw [hrest] at h
              cases h
            · rcases ih hrest with ⟨f', hf', hprop⟩
              exact ⟨f', List.mem_cons_of_mem _ hf', hprop⟩

theorem C10_witness :
    loadRunningServices
      (fun _ => ⟨⟨some ⟨"svc", ""⟩, "/cfg/edward.json"⟩, true⟩)
      (Except.ok [⟨"archive", true, Except.ok ""⟩,
                  ⟨"svc.json", false, Except.ok "partial"⟩])
      = LoadOutcome.ok [⟨"svc", "/cfg/edward.json"⟩] := by
  have hmain := (C10_load_running_services
      (fun _ => ⟨⟨some ⟨"svc", ""⟩, "/cfg/edward.json"⟩, true⟩)).2.2.1
    [⟨"archive", true, Except.ok ""⟩, ⟨"svc.json", false, Except.ok "partial"⟩]
    (by
      intro f hf hdir
      rcases List.mem_cons.mp hf with rfl | hf
      · cases hdir
      · rcases List.mem_cons.mp hf with rfl | hf
        · rfl
        · cases hf)
    (by
      intro f hf hdir
      rfl)
  rw [hmain]
  rfl

end Edward
